import Mathlib

/-!
Shallow embedding of the easytidal repository core (src/src/main.py and
src/app.py): the dependency-graph builder, the TTL snapshot cache, the
bounded history log, and the hierarchical layout engine, together with
theorems checking the natural-language specification against this code.
-/

/-- A job trigger record as returned by `TidalAPI.get_job_triggers`
(src/src/main.py): only the `triggered_job_name` field is read by
`build_job_graph`. -/
structure Trigger where
  triggered_job_name : String
deriving DecidableEq, Repr

/-- A job record as consumed by `build_job_graph` (src/src/main.py):
only the `id` and `name` fields are read there. -/
structure Job where
  id : String
  name : String
deriving DecidableEq, Repr

/-- A networkx `DiGraph` at the granularity the repository uses it:
an insertion-ordered node list and an insertion-ordered edge list
(an edge `(a, b)` is the directed edge a -> b). -/
structure Graph where
  nodes : List String
  edges : List (String × String)
deriving DecidableEq, Repr

/-- networkx `G.add_node(n)`: a no-op when the node exists, otherwise the
node is appended (networkx keeps insertion order). -/
def Graph.addNode (G : Graph) (n : String) : Graph :=
  if n ∈ G.nodes then G else ⟨G.nodes ++ [n], G.edges⟩

/-- networkx `G.add_edge(a, b)`: both endpoints are added as nodes when
absent (source first), and the edge is recorded once. -/
def Graph.addEdge (G : Graph) (a b : String) : Graph :=
  let G1 := (G.addNode a).addNode b
  if (a, b) ∈ G1.edges then G1 else ⟨G1.nodes, G1.edges ++ [(a, b)]⟩

/-- networkx `list(G.predecessors(n))`: the sources of the in-edges of `n`,
in edge insertion order. -/
def Graph.predecessorsOf (G : Graph) (n : String) : List String :=
  (G.edges.filter (fun e => e.2 = n)).map (fun e => e.1)

/-- The recursive worker of `build_job_graph` (src/src/main.py lines
183-194): for each job, add a node for its name, fetch its triggers
(which may fail), and add one edge per trigger.  A fetch failure aborts
the whole loop and is propagated unchanged. -/
def buildJobGraphFrom {ε : Type} (api : String → Except ε (List Trigger)) :
    List Job → Graph → Except ε Graph
  | [], G => Except.ok G
  | job :: rest, G =>
    let G1 := G.addNode job.name
    match api job.id with
    | Except.error e => Except.error e
    | Except.ok triggers =>
      buildJobGraphFrom api rest
        (triggers.foldl (fun g trg => g.addEdge job.name trg.triggered_job_name) G1)

/-- `build_job_graph(jobs, api)` from src/src/main.py: builds the directed
job-dependency graph, starting from the empty `nx.DiGraph()`. -/
def build_job_graph {ε : Type} (jobs : List Job)
    (api : String → Except ε (List Trigger)) : Except ε Graph :=
  buildJobGraphFrom api jobs ⟨[], []⟩

/-- A history entry as built by `JobHistory.add_status_entry`
(src/src/main.py lines 144-154). -/
structure HistoryEntry where
  timestamp : String
  job_id : String
  job_name : String
  status : String
  output : Option String
  error_log : Option String
deriving DecidableEq, Repr

/-- `JobHistory.add_status_entry` at the level of the stored entry list,
with the retention count as a parameter `cap` (the source fixes
`cap = 1000`): load the stored list, append the new entry, and when the
result is longer than `cap` keep only the last `cap` entries
(`history[-1000:]`), which for a list of length `len > cap` is
`drop (len - cap)`. -/
def addStatusEntryCap (cap : Nat) (stored : List HistoryEntry)
    (entry : HistoryEntry) : List HistoryEntry :=
  if (stored ++ [entry]).length > cap then
    (stored ++ [entry]).drop ((stored ++ [entry]).length - cap)
  else stored ++ [entry]

/-- `JobHistory.add_status_entry` with the cap hard-coded to 1000 as in
src/src/main.py lines 159-161. -/
def add_status_entry (stored : List HistoryEntry) (entry : HistoryEntry) :
    List HistoryEntry :=
  addStatusEntryCap 1000 stored entry

/-- `JobHistory.load_history` at the level of the stored entry list: the
json round-trip returns the entire stored list, with no truncation on
read. -/
def load_history (stored : List HistoryEntry) : List HistoryEntry :=
  stored

/-- A Python tail slice `l[-limit:]` on a Python `int` argument:
for `limit > 0` it keeps the last `limit` elements (all of them when
`limit` exceeds the length); `l[-0:]` is `l[0:]`, the whole list; and a
negative `limit` makes `-limit` a positive start index, dropping the
first `-limit` elements. -/
def pyTailSlice {α : Type} (limit : Int) (l : List α) : List α :=
  if 0 < limit then l.drop (l.length - limit.toNat) else l.drop (-limit).toNat

/-- `JobHistory.get_job_history(job_name, limit)` from src/src/main.py
lines 177-181: filter the stored list to the entries whose `job_name`
matches, then return `job_history[-limit:]` when the filtered list is
non-empty and `[]` otherwise. -/
def get_job_history (stored : List HistoryEntry) (job_name : String)
    (limit : Int) : List HistoryEntry :=
  let job_history := stored.filter (fun entry => entry.job_name = job_name)
  if job_history.isEmpty then [] else pyTailSlice limit job_history

/-- The persisted cache file as the validity check sees it: the
modification time (seconds) recorded by the file system, plus the raw
serialized content. -/
structure CacheFile where
  mtime : Int
  content : String
deriving DecidableEq, Repr

/-- `JobCache.is_cache_valid` (src/src/main.py lines 112-119): false when
the cache file does not exist; otherwise true iff the current time is
before the file modification time plus `expiry_hours` hours
(`timedelta(hours=expiry_hours)`, here in seconds). -/
def is_cache_valid (expiry_hours : Int) (file : Option CacheFile)
    (now : Int) : Bool :=
  match file with
  | none => false
  | some f => decide (now < f.mtime + expiry_hours * 3600)

/-- `JobCache.save_cache` (src/src/main.py lines 121-124) at end-to-end
granularity: the file now holds the serialized data, and its modification
time is the time of the write. -/
def save_cache (data : String) (now : Int) (_file : Option CacheFile) :
    Option CacheFile :=
  some ⟨now, data⟩

/-- One file-system step performed by `JobCache.save_cache` on the cache
file: `open(self.cache_file, 'w')` truncates the file in place, and
`json.dump(data, f)` then writes the serialized snapshot. -/
inductive FsOp where
  | truncate : FsOp
  | writeAll : String → FsOp
deriving DecidableEq, Repr

/-- Effect of one `FsOp` on the observable content of the cache file. -/
def applyFsOp (content : Option String) (op : FsOp) : Option String :=
  match op with
  | FsOp.truncate => some ""
  | FsOp.writeAll s =>
    match content with
    | none => some s
    | some _ => some s

/-- The sequence of file-system steps `JobCache.save_cache` performs on
the cache file, in source order: truncate in place, then write the
serialized data.  There is no write to a temporary file and no rename. -/
def save_cache_steps (data : String) : List FsOp :=
  [FsOp.truncate, FsOp.writeAll data]

/-- All file contents observable while a step sequence runs: the initial
content and the content after each step. -/
def observableContents (init : Option String) (ops : List FsOp) :
    List (Option String) :=
  match ops with
  | [] => [init]
  | op :: rest => init :: observableContents (applyFsOp init op) rest

/-- The snapshot stored by the cache, as `get_job_data` reads and writes
it: the job list together with the graph (src/app.py lines 29-45). -/
structure Snapshot where
  jobs : List Job
  graph : Graph
deriving DecidableEq, Repr

/-- `get_job_data` from src/app.py lines 21-51, over an explicit cache
store: when the cache is valid, `load_cache` yields the stored snapshot
and it is served with source "cache"; otherwise the job list is fetched,
the graph is built, and only on success is the snapshot written back to
the store; any failure is re-raised with the message prefix
"Unable to connect to Tidal API: " and the store is left unchanged. -/
def get_job_data (store : Option Snapshot) (valid : Bool)
    (jobsResult : Except String (List Job))
    (api : String → Except String (List Trigger)) :
    Except String (List Job × Graph × String) × Option Snapshot :=
  let cached := if valid then store else none
  match cached with
  | some snap => (Except.ok (snap.jobs, snap.graph, "cache"), store)
  | none =>
    match jobsResult with
    | Except.error e =>
      (Except.error ("Unable to connect to Tidal API: " ++ e), store)
    | Except.ok jobs =>
      match build_job_graph jobs api with
      | Except.error e =>
        (Except.error ("Unable to connect to Tidal API: " ++ e), store)
      | Except.ok G => (Except.ok (jobs, G, "api"), some ⟨jobs, G⟩)

/-- Distinct sample history entries used in concrete scenarios. -/
def sampleEntry (n : Nat) : HistoryEntry :=
  ⟨"t" ++ toString n, toString n, "jobA", "success", none, none⟩

theorem addStatusEntryCap_eq_drop (cap : Nat) (stored : List HistoryEntry)
    (e : HistoryEntry) :
    addStatusEntryCap cap stored e =
      (stored ++ [e]).drop ((stored ++ [e]).length - cap) := by
  rw [addStatusEntryCap]
  split
  · rfl
  · next h =>
    have h0 : (stored ++ [e]).length - cap = 0 := by omega
    rw [h0, List.drop_zero]

theorem drop_sub_append_of_le {α : Type} (u v : List α) (cap : Nat)
    (h : cap ≤ v.length) :
    (u ++ v).drop ((u ++ v).length - cap) = v.drop (v.length - cap) := by
  have hlen : (u ++ v).length - cap = u.length + (v.length - cap) := by
    simp only [List.length_append]; omega
  rw [hlen, List.drop_append]

theorem rtake_append_rtake {α : Type} (l t : List α) (cap : Nat) :
    ((l.drop (l.length - cap)) ++ t).drop
        (((l.drop (l.length - cap)) ++ t).length - cap)
      = (l ++ t).drop ((l ++ t).length - cap) := by
  by_cases h : cap ≤ l.length
  · have hlen : (l.drop (l.length - cap)).length = cap := by
      rw [List.length_drop]; omega
    have h2 : cap ≤ (l.drop (l.length - cap) ++ t).length := by
      rw [List.length_append, hlen]; omega
    conv_rhs => rw [← List.take_append_drop (l.length - cap) l, List.append_assoc]
    rw [drop_sub_append_of_le _ _ cap h2]
  · have h0 : l.length - cap = 0 := by omega
    simp [h0]

theorem foldl_addStatusEntryCap (cap : Nat) :
    ∀ (es stored : List HistoryEntry), es ≠ [] →
      es.foldl (addStatusEntryCap cap) stored =
        (stored ++ es).drop ((stored ++ es).length - cap)
  | [], _, h => absurd rfl h
  | [e], stored, _ => by
    simp only [List.foldl_cons, List.foldl_nil]
    exact addStatusEntryCap_eq_drop cap stored e
  | e :: e2 :: rest, stored, _ => by
    have ih := foldl_addStatusEntryCap cap (e2 :: rest)
      (addStatusEntryCap cap stored e) (by simp)
    simp only [List.foldl_cons] at ih ⊢
    rw [ih, addStatusEntryCap_eq_drop cap stored e, rtake_append_rtake]
    simp [List.append_assoc]

/-- C3: for every sequence of appends, after each `add_status_entry` the
history log length is at most the cap (1000 in the source, parametric
here), the oldest entries are dropped first, the cap is enforced on every
append and never on read (loading returns the stored list unchanged), and
appending `cap + k` entries leaves exactly the newest `cap`; in
particular with cap 3, appending e1..e5 in order leaves exactly
[e3, e4, e5]. -/
theorem c3_history_log_bounded :
    (∀ (cap : Nat) (stored : List HistoryEntry) (e : HistoryEntry),
        (addStatusEntryCap cap stored e).length ≤ cap) ∧
    (∀ (stored : List HistoryEntry) (e : HistoryEntry),
        (add_status_entry stored e).length ≤ 1000) ∧
    (∀ (cap k : Nat) (stored es : List HistoryEntry),
        es.length = cap + k → 1 ≤ cap + k →
        es.foldl (addStatusEntryCap cap) stored = es.drop k ∧
          (es.drop k).length = cap) ∧
    (∀ stored : List HistoryEntry, load_history stored = stored) ∧
    ([sampleEntry 1, sampleEntry 2, sampleEntry 3, sampleEntry 4,
        sampleEntry 5].foldl (addStatusEntryCap 3) []
      = [sampleEntry 3, sampleEntry 4, sampleEntry 5]) := by
  refine ⟨?_, ?_, ?_, fun _ => rfl, by decide⟩
  · intro cap stored e
    rw [addStatusEntryCap_eq_drop, List.length_drop]
    omega
  · intro stored e
    rw [add_status_entry, addStatusEntryCap_eq_drop, List.length_drop]
    omega
  · intro cap k stored es hlen hpos
    have hne : es ≠ [] := by
      intro h; rw [h] at hlen; simp at hlen; omega
    constructor
    · rw [foldl_addStatusEntryCap cap es stored hne,
        drop_sub_append_of_le stored es cap (by omega)]
      congr 1
      omega
    · rw [List.length_drop]
      omega

/-- Witness for C3: the `cap + k` retention conjunct applied at cap 3,
k 2, an empty initial log and five concrete entries. -/
theorem c3_history_log_bounded_witness :
    ([sampleEntry 1, sampleEntry 2, sampleEntry 3, sampleEntry 4,
        sampleEntry 5].length = 3 + 2 ∧ 1 ≤ 3 + 2) ∧
    ([sampleEntry 1, sampleEntry 2, sampleEntry 3, sampleEntry 4,
        sampleEntry 5].foldl (addStatusEntryCap 3) []
      = [sampleEntry 1, sampleEntry 2, sampleEntry 3, sampleEntry 4,
          sampleEntry 5].drop 2 ∧
      ([sampleEntry 1, sampleEntry 2, sampleEntry 3, sampleEntry 4,
          sampleEntry 5].drop 2).length = 3) :=
  ⟨⟨by decide, by decide⟩,
    c3_history_log_bounded.2.2.1 3 2 []
      [sampleEntry 1, sampleEntry 2, sampleEntry 3, sampleEntry 4,
        sampleEntry 5] (by decide) (by decide)⟩

/-- C4: `is_cache_valid` is true iff the cache file exists and the time
elapsed since its modification time is less than the configured TTL
(`expiry_hours` hours); in particular it is true immediately after
`save_cache` (for a positive TTL such as the default 24 hours) and false
once more than the TTL has elapsed since the write. -/
theorem c4_cache_validity :
    (∀ (expiry_hours : Int) (file : Option CacheFile) (now : Int),
        is_cache_valid expiry_hours file now = true ↔
          ∃ f, file = some f ∧ now - f.mtime < expiry_hours * 3600) ∧
    (∀ (expiry_hours : Int) (data : String) (now : Int)
        (file : Option CacheFile), 0 < expiry_hours →
        is_cache_valid expiry_hours (save_cache data now file) now = true) ∧
    (∀ (expiry_hours : Int) (data : String) (now now2 : Int)
        (file : Option CacheFile), expiry_hours * 3600 < now2 - now →
        is_cache_valid expiry_hours (save_cache data now file) now2 = false) := by
  refine ⟨?_, ?_, ?_⟩
  · intro e file now
    cases file with
    | none => simp [is_cache_valid]
    | some f =>
      simp only [is_cache_valid, decide_eq_true_eq]
      constructor
      · intro h
        exact ⟨f, rfl, by omega⟩
      · rintro ⟨f2, hf, h⟩
        cases hf
        omega
  · intro e data now file he
    simp only [save_cache, is_cache_valid, decide_eq_true_eq]
    omega
  · intro e data now now2 file h
    simp only [save_cache, is_cache_valid, decide_eq_false_iff_not, not_lt]
    omega

/-- Witness for C4: with the default 24-hour TTL, a cache file written at
time 0 is valid at time 0 and invalid at time 100000 (more than 24 hours
later). -/
theorem c4_cache_validity_witness :
    ((0 : Int) < 24 ∧ (24 : Int) * 3600 < 100000 - 0) ∧
    is_cache_valid 24 (save_cache "data" 0 none) 0 = true ∧
    is_cache_valid 24 (save_cache "data" 0 none) 100000 = false :=
  ⟨⟨by decide, by decide⟩,
    c4_cache_validity.2.1 24 "data" 0 none (by decide),
    c4_cache_validity.2.2 24 "data" 0 100000 none (by decide)⟩

/-- Counterexample to C7: with limit 0, the claim calls for the most
recent zero matching entries, i.e. the empty list, but `get_job_history`
evaluates the Python slice `job_history[-0:]`, which is the whole
filtered list. -/
theorem c7_counterexample_limit_zero :
    get_job_history [sampleEntry 1] "jobA" 0 = [sampleEntry 1] ∧
    [sampleEntry 1] ≠ ([] : List HistoryEntry) := by
  constructor
  · decide
  · decide

/-- C7 (amended): for every history log, job name and limit at least 1,
`get_job_history` returns the most recent `limit` entries whose
`job_name` matches: the result is the final segment of the matched
sublist (so it is in chronological order, oldest of the matched subset
first), of length `min limit (number of matches)`; for limit 0 the whole
matched sublist is returned instead. -/
theorem c7_get_job_history_recent :
    ∀ (stored : List HistoryEntry) (name : String) (limit : Int),
      1 ≤ limit →
      get_job_history stored name limit =
        (stored.filter (fun e => e.job_name = name)).drop
          ((stored.filter (fun e => e.job_name = name)).length - limit.toNat) ∧
      (get_job_history stored name limit).length =
        min limit.toNat (stored.filter (fun e => e.job_name = name)).length ∧
      (stored.filter (fun e => e.job_name = name)).take
          ((stored.filter (fun e => e.job_name = name)).length - limit.toNat) ++
        get_job_history stored name limit =
        stored.filter (fun e => e.job_name = name) := by
  intro stored name limit hlim
  have hpos : (0 : Int) < limit := by omega
  have hmain : get_job_history stored name limit =
      (stored.filter (fun e => e.job_name = name)).drop
        ((stored.filter (fun e => e.job_name = name)).length - limit.toNat) := by
    by_cases hempty : (stored.filter (fun e => e.job_name = name)).isEmpty = true
    · have hnil : stored.filter (fun e => e.job_name = name) = [] :=
        List.isEmpty_iff.mp hempty
      simp [get_job_history, hnil]
    · have h2 : (stored.filter (fun e => e.job_name = name)).isEmpty = false := by
        rwa [Bool.not_eq_true] at hempty
      simp only [get_job_history, h2, Bool.false_eq_true, if_false, pyTailSlice,
        if_pos hpos]
  refine ⟨hmain, ?_, ?_⟩
  · rw [hmain, List.length_drop]
    omega
  · rw [hmain, List.take_append_drop]

/-- Witness for C7 (amended): applied to a two-entry log, a matching name
and limit 1, yielding the single most recent matching entry. -/
theorem c7_get_job_history_recent_witness :
    (1 : Int) ≤ 1 ∧
    get_job_history [sampleEntry 1, sampleEntry 2] "jobA" 1 =
      ([sampleEntry 1, sampleEntry 2].filter
          (fun e => e.job_name = "jobA")).drop
        (([sampleEntry 1, sampleEntry 2].filter
            (fun e => e.job_name = "jobA")).length - (1 : Int).toNat) :=
  ⟨by decide,
    (c7_get_job_history_recent [sampleEntry 1, sampleEntry 2] "jobA" 1
      (by decide)).1⟩

/-- C10 is violated by the code: `save_cache` opens the target file with
mode w, truncating it in place, before `json.dump` writes the new
snapshot, so a reader between the two steps observes an empty file that
is neither the old snapshot nor the new one; there is no
write-to-temp-then-rename. -/
theorem c10_save_cache_partial_write_observable :
    observableContents (some "old") (save_cache_steps "new") =
      [some "old", some "", some "new"] ∧
    some "" ∈ observableContents (some "old") (save_cache_steps "new") ∧
    some "" ≠ some "old" ∧ some "" ≠ some "new" := by
  refine ⟨rfl, ?_, by decide, by decide⟩
  rw [show observableContents (some "old") (save_cache_steps "new") =
    [some "old", some "", some "new"] from rfl]
  simp

theorem mem_addNode_nodes (G : Graph) (n m : String) :
    m ∈ (G.addNode n).nodes ↔ m ∈ G.nodes ∨ m = n := by
  rw [Graph.addNode]
  split
  · next h => exact ⟨Or.inl, fun hm => hm.elim id (fun e => e ▸ h)⟩
  · simp [List.mem_append]

theorem addNode_edges (G : Graph) (n : String) : (G.addNode n).edges = G.edges := by
  rw [Graph.addNode]
  split <;> rfl


theorem addEdge_edges (G : Graph) (a b : String) :
    (G.addEdge a b).edges =
      if (a, b) ∈ G.edges then G.edges else G.edges ++ [(a, b)] := by
  simp only [Graph.addEdge, addNode_edges]
  split
  · rw [addNode_edges, addNode_edges]
  · rfl

theorem addEdge_nodes (G : Graph) (a b : String) :
    (G.addEdge a b).nodes = ((G.addNode a).addNode b).nodes := by
  simp only [Graph.addEdge, addNode_edges]
  split <;> rfl

theorem mem_addEdge_edges (G : Graph) (a b : String) (e : String × String) :
    e ∈ (G.addEdge a b).edges ↔ e ∈ G.edges ∨ e = (a, b) := by
  rw [addEdge_edges]
  split
  · next h => exact ⟨Or.inl, fun hm => hm.elim id (fun hh => hh ▸ h)⟩
  · simp [List.mem_append]

theorem mem_addEdge_nodes (G : Graph) (a b m : String) :
    m ∈ (G.addEdge a b).nodes ↔ m ∈ G.nodes ∨ m = a ∨ m = b := by
  rw [addEdge_nodes, mem_addNode_nodes, mem_addNode_nodes, or_assoc]

theorem foldTriggers_edges (name : String) :
    ∀ (ts : List Trigger) (G : Graph) (e : String × String),
      e ∈ (ts.foldl (fun g trg => g.addEdge name trg.triggered_job_name) G).edges ↔
        e ∈ G.edges ∨ ∃ t ∈ ts, e = (name, t.triggered_job_name)
  | [], G, e => by simp
  | t :: rest, G, e => by
    simp only [List.foldl_cons]
    rw [foldTriggers_edges name rest, mem_addEdge_edges]
    simp only [List.mem_cons]
    constructor
    · rintro ((h | h) | ⟨x, hx, h⟩)
      · exact Or.inl h
      · exact Or.inr ⟨t, Or.inl rfl, h⟩
      · exact Or.inr ⟨x, Or.inr hx, h⟩
    · rintro (h | ⟨x, (rfl | hx), h⟩)
      · exact Or.inl (Or.inl h)
      · exact Or.inl (Or.inr h)
      · exact Or.inr ⟨x, hx, h⟩

theorem foldTriggers_nodes (name : String) :
    ∀ (ts : List Trigger) (G : Graph) (m : String), name ∈ G.nodes →
      (m ∈ (ts.foldl (fun g trg => g.addEdge name trg.triggered_job_name) G).nodes ↔
        m ∈ G.nodes ∨ ∃ t ∈ ts, t.triggered_job_name = m)
  | [], G, m, _ => by simp
  | t :: rest, G, m, hname => by
    simp only [List.foldl_cons]
    rw [foldTriggers_nodes name rest _ _
      ((mem_addEdge_nodes G name t.triggered_job_name name).mpr
        (Or.inr (Or.inl rfl))), mem_addEdge_nodes]
    simp only [List.mem_cons]
    constructor
    · rintro ((h | h | h) | ⟨x, hx, h⟩)
      · exact Or.inl h
      · exact Or.inl (h ▸ hname)
      · exact Or.inr ⟨t, Or.inl rfl, h.symm⟩
      · exact Or.inr ⟨x, Or.inr hx, h⟩
    · rintro (h | ⟨x, (rfl | hx), h⟩)
      · exact Or.inl (Or.inl h)
      · exact Or.inl (Or.inr (Or.inr h.symm))
      · exact Or.inr ⟨x, hx, h⟩

theorem buildJobGraphFrom_ok_char (T : String → List Trigger) :
    ∀ (jobs : List Job) (G : Graph),
      ∃ G2, buildJobGraphFrom
          (fun id => (Except.ok (T id) : Except String (List Trigger))) jobs G =
            Except.ok G2 ∧
        (∀ n, n ∈ G2.nodes ↔ n ∈ G.nodes ∨ (∃ j ∈ jobs, j.name = n) ∨
            (∃ j ∈ jobs, ∃ t ∈ T j.id, t.triggered_job_name = n)) ∧
        (∀ a b, (a, b) ∈ G2.edges ↔ (a, b) ∈ G.edges ∨
            ∃ j ∈ jobs, j.name = a ∧ ∃ t ∈ T j.id, t.triggered_job_name = b)
  | [], G => ⟨G, rfl, by simp, by simp⟩
  | job :: rest, G => by
    obtain ⟨G2, hbuild, hn, he⟩ := buildJobGraphFrom_ok_char T rest
      ((T job.id).foldl
        (fun g trg => g.addEdge job.name trg.triggered_job_name) (G.addNode job.name))
    have hstep : buildJobGraphFrom
        (fun id => (Except.ok (T id) : Except String (List Trigger)))
        (job :: rest) G =
      buildJobGraphFrom (fun id => (Except.ok (T id) : Except String (List Trigger)))
        rest ((T job.id).foldl
          (fun g trg => g.addEdge job.name trg.triggered_job_name)
          (G.addNode job.name)) := rfl
    refine ⟨G2, hstep.trans hbuild, ?_, ?_⟩
    · intro n
      rw [hn, foldTriggers_nodes job.name _ _ _
        ((mem_addNode_nodes G job.name job.name).mpr (Or.inr rfl)),
        mem_addNode_nodes]
      simp only [List.mem_cons]
      constructor
      · rintro (((h | h) | ⟨t, ht, h⟩) | ⟨j, hj, h⟩ | ⟨j, hj, t, ht, h⟩)
        · exact Or.inl h
        · exact Or.inr (Or.inl ⟨job, Or.inl rfl, h.symm⟩)
        · exact Or.inr (Or.inr ⟨job, Or.inl rfl, t, ht, h⟩)
        · exact Or.inr (Or.inl ⟨j, Or.inr hj, h⟩)
        · exact Or.inr (Or.inr ⟨j, Or.inr hj, t, ht, h⟩)
      · rintro (h | ⟨j, (rfl | hj), h⟩ | ⟨j, (rfl | hj), t, ht, h⟩)
        · exact Or.inl (Or.inl (Or.inl h))
        · exact Or.inl (Or.inl (Or.inr h.symm))
        · exact Or.inr (Or.inl ⟨j, hj, h⟩)
        · exact Or.inl (Or.inr ⟨t, ht, h⟩)
        · exact Or.inr (Or.inr ⟨j, hj, t, ht, h⟩)
    · intro a b
      rw [he, foldTriggers_edges, addNode_edges]
      simp only [List.mem_cons]
      constructor
      · rintro ((h | ⟨t, ht, h⟩) | ⟨j, hj, h, t, ht, hb⟩)
        · exact Or.inl h
        · exact Or.inr ⟨job, Or.inl rfl, (congrArg Prod.fst h).symm, t, ht,
            (congrArg Prod.snd h).symm⟩
        · exact Or.inr ⟨j, Or.inr hj, h, t, ht, hb⟩
      · rintro (h | ⟨j, (rfl | hj), h, t, ht, hb⟩)
        · exact Or.inl (Or.inl h)
        · exact Or.inl (Or.inr ⟨t, ht, by rw [h, hb]⟩)
        · exact Or.inr ⟨j, hj, h, t, ht, hb⟩

/-- C6: for every job list and total trigger mapping, `build_job_graph`
succeeds and its node set is exactly the job names plus the triggered
names occurring in the trigger lists (implicit nodes, even when absent
from the job list), and its edge set is exactly the pairs
(job name, triggered job name) ranging over each job and its triggers. -/
theorem c6_graph_nodes_and_edges :
    ∀ (jobs : List Job) (T : String → List Trigger),
      ∃ G : Graph,
        build_job_graph jobs
            (fun id => (Except.ok (T id) : Except String (List Trigger))) =
          Except.ok G ∧
        (∀ n, n ∈ G.nodes ↔
          (∃ j ∈ jobs, j.name = n) ∨
          (∃ j ∈ jobs, ∃ t ∈ T j.id, t.triggered_job_name = n)) ∧
        (∀ a b, (a, b) ∈ G.edges ↔
          ∃ j ∈ jobs, j.name = a ∧ ∃ t ∈ T j.id, t.triggered_job_name = b) := by
  intro jobs T
  obtain ⟨G, hbuild, hn, he⟩ := buildJobGraphFrom_ok_char T jobs ⟨[], []⟩
  refine ⟨G, hbuild, ?_, ?_⟩
  · intro n
    rw [hn]
    simp
  · intro a b
    rw [he]
    simp

theorem buildJobGraphFrom_error (ε : Type) (api : String → Except ε (List Trigger)) :
    ∀ (pre : List Job) (j : Job) (post : List Job) (e : ε) (G : Graph),
      (∀ j2 ∈ pre, ∃ ts, api j2.id = Except.ok ts) → api j.id = Except.error e →
      buildJobGraphFrom api (pre ++ j :: post) G = Except.error e
  | [], j, post, e, G, _, herr => by
    simp only [List.nil_append, buildJobGraphFrom, herr]
  | p :: rest, j, post, e, G, hok, herr => by
    obtain ⟨ts, hts⟩ := hok p (List.mem_cons_self p rest)
    simp only [List.cons_append, buildJobGraphFrom, hts]
    exact buildJobGraphFrom_error ε api rest j post e _
      (fun j2 hj2 => hok j2 (List.mem_cons_of_mem p hj2)) herr

/-- C5: when the trigger fetch for any single job fails during graph
construction, `build_job_graph` aborts and propagates that exact failure
value to the caller (the jobs before it having fetched fine), and
`get_job_data` then re-raises it without writing any snapshot to the
cache store, which is returned unchanged. -/
theorem c5_fail_fast_no_partial_cache :
    (∀ (ε : Type) (api : String → Except ε (List Trigger))
        (pre post : List Job) (j : Job) (e : ε),
      (∀ j2 ∈ pre, ∃ ts, api j2.id = Except.ok ts) →
      api j.id = Except.error e →
      build_job_graph (pre ++ j :: post) api = Except.error e) ∧
    (∀ (api : String → Except String (List Trigger))
        (pre post : List Job) (j : Job) (e : String) (store : Option Snapshot),
      (∀ j2 ∈ pre, ∃ ts, api j2.id = Except.ok ts) →
      api j.id = Except.error e →
      get_job_data store false (Except.ok (pre ++ j :: post)) api =
        (Except.error ("Unable to connect to Tidal API: " ++ e), store)) := by
  constructor
  · intro ε api pre post j e hok herr
    exact buildJobGraphFrom_error ε api pre j post e _ hok herr
  · intro api pre post j e store hok herr
    have hbuild : build_job_graph (pre ++ j :: post) api = Except.error e :=
      buildJobGraphFrom_error String api pre j post e _ hok herr
    simp [get_job_data, hbuild]

/-- Witness for C5: a one-job list whose trigger fetch fails with the
message "boom"; the build propagates exactly that error and the cache
store (here empty) is left unchanged by `get_job_data`. -/
theorem c5_fail_fast_no_partial_cache_witness :
    ((∀ j2 ∈ ([] : List Job), ∃ ts,
        (fun (_ : String) => (Except.error "boom" : Except String (List Trigger)))
          j2.id = Except.ok ts) ∧
      (fun (_ : String) => (Except.error "boom" : Except String (List Trigger)))
        (Job.mk "1" "A").id = Except.error "boom") ∧
    get_job_data none false (Except.ok ([] ++ Job.mk "1" "A" :: []))
        (fun _ => Except.error "boom") =
      (Except.error ("Unable to connect to Tidal API: " ++ "boom"), none) :=
  ⟨⟨fun j2 hj2 => absurd hj2 (List.not_mem_nil j2), rfl⟩,
    c5_fail_fast_no_partial_cache.2 (fun _ => Except.error "boom") [] [] (Job.mk "1" "A")
      "boom" none (fun j2 hj2 => absurd hj2 (List.not_mem_nil j2)) rfl⟩

/-- The mutable state of the level-assignment pass of
`create_hierarchical_layout` (src/app.py lines 193-213): the `processed`
set as an insertion-ordered list (the order in which nodes are first
seen) and the `levels` dict as an insertion-ordered association list. -/
structure LState where
  processed : List String
  levels : List (String × Nat)
deriving DecidableEq, Repr

/-- First-match association-list lookup, the reading of a Python dict. -/
def lookupA {κ β : Type} [DecidableEq κ] : List (κ × β) → κ → Option β
  | [], _ => none
  | e :: rest, k => if e.1 = k then some e.2 else lookupA rest k

/-- `max(...)` over a list of levels, 0 for the empty list. -/
def listMax (l : List Nat) : Nat := l.foldr max 0

/-- One evaluation of the generator
`max(assign_level(pred, level) for pred in predecessors)` inside
`assign_level`: the call `rec` is threaded through the predecessor list
left to right and the returned values are combined with `max` (0 for the
empty list, which `assign_level` never passes). -/
def maxFold (rec : LState → String → Nat → Option (LState × Nat)) :
    LState → List String → Nat → Option (LState × Nat)
  | st, [], _ => some (st, 0)
  | st, p :: ps, level =>
    match rec st p level with
    | none => none
    | some (st1, v) =>
      match maxFold rec st1 ps level with
      | none => none
      | some (st2, m) => some (st2, max v m)

/-- `assign_level(node, level=0)` from src/app.py lines 196-209, with an
explicit recursion-depth fuel (`none` when the fuel runs out; the
sufficiency theorems below show that `layoutFuel` is always enough).  A
node already in `processed` immediately returns its memoized level, or
the `level` argument (always 0 in reachable calls) when it has none yet -
this is the guard that stops recursion; otherwise the node is marked
processed, assigned 0 when it has no predecessors, and otherwise one plus
the maximum of the recursive calls on its predecessors. -/
def assignLevel (G : Graph) : Nat → LState → String → Nat → Option (LState × Nat)
  | 0, _, _, _ => none
  | fuel + 1, st, node, level =>
    if node ∈ st.processed then
      some (st, (lookupA st.levels node).getD level)
    else
      let st1 : LState := ⟨st.processed ++ [node], st.levels⟩
      let preds := G.predecessorsOf node
      if preds.isEmpty then
        some (⟨st1.processed, st1.levels ++ [(node, 0)]⟩, 0)
      else
        match maxFold (assignLevel G fuel) st1 preds level with
        | none => none
        | some (st2, m) =>
          some (⟨st2.processed, st2.levels ++ [(node, m + 1)]⟩, m + 1)

/-- The loop `for node in G.nodes(): assign_level(node)` of
`create_hierarchical_layout` (src/app.py lines 212-213). -/
def assignNodes (G : Graph) (fuel : Nat) : LState → List String → Option LState
  | st, [] => some st
  | st, n :: ns =>
    match assignLevel G fuel st n 0 with
    | none => none
    | some (st1, _) => assignNodes G fuel st1 ns

/-- A recursion-depth bound that always suffices: one more than the total
number of node-name occurrences in the node list and the edge list. -/
def layoutFuel (G : Graph) : Nat :=
  (G.nodes ++ G.edges.map (fun e => e.1) ++ G.edges.map (fun e => e.2)).length + 1

/-- The state (`processed`, `levels`) after the level-assignment loop of
`create_hierarchical_layout`. -/
def layoutState (G : Graph) : Option LState :=
  assignNodes G (layoutFuel G) ⟨[], []⟩ G.nodes

/-- The `levels` dict after the level-assignment loop. -/
def layoutLevels (G : Graph) : Option (List (String × Nat)) :=
  (layoutState G).map (fun st => st.levels)

/-- One step of the `level_groups` loop: add node `n` with level `lv`,
appending to the existing group for `lv` or creating a new group at the
end (Python dict insertion order). -/
def addToGroups (gs : List (Nat × List String)) (lv : Nat) (n : String) :
    List (Nat × List String) :=
  if gs.any (fun g => g.1 = lv) then
    gs.map (fun g => if g.1 = lv then (g.1, g.2 ++ [n]) else g)
  else gs ++ [(lv, [n])]

/-- The `level_groups` dict of `create_hierarchical_layout` (src/app.py
lines 216-220), built by iterating `levels.items()` in insertion order. -/
def levelGroups (entries : List (String × Nat)) : List (Nat × List String) :=
  entries.foldl (fun gs e => addToGroups gs e.2 e.1) []

/-- The position loop of `create_hierarchical_layout` (src/app.py lines
222-233): a node of level `lv` at index `i` of its level group of size
`num` gets x = lv * 200 and y = (i - num/2 + 0.5) * 100.  The Python
float arithmetic here is exact, so rationals model it faithfully. -/
def groupPositions (lv : Nat) (ns : List String) : List (String × (ℚ × ℚ)) :=
  ns.enum.map (fun p =>
    (p.2, ((lv : ℚ) * 200, ((p.1 : ℚ) - (ns.length : ℚ) / 2 + 0.5) * 100)))

/-- `create_hierarchical_layout(G)` from src/app.py lines 190-235: assign
levels to all nodes, group the nodes by level, and lay each level group
out in a vertical column; `none` only on fuel exhaustion, which the
totality theorem rules out. -/
def create_hierarchical_layout (G : Graph) : Option (List (String × (ℚ × ℚ))) :=
  match layoutState G with
  | none => none
  | some st =>
    some ((levelGroups st.levels).foldl
      (fun acc g => acc ++ groupPositions g.1 g.2) [])

theorem lookupA_append_some {κ β : Type} [DecidableEq κ] :
    ∀ (l1 l2 : List (κ × β)) (k : κ) (v : β),
      lookupA l1 k = some v → lookupA (l1 ++ l2) k = some v
  | [], _, _, _, h => by simp [lookupA] at h
  | e :: rest, l2, k, v, h => by
    rw [List.cons_append]
    simp only [lookupA] at h ⊢
    by_cases he : e.1 = k
    · rw [if_pos he] at h ⊢
      exact h
    · rw [if_neg he] at h ⊢
      exact lookupA_append_some rest l2 k v h

theorem lookupA_append_none {κ β : Type} [DecidableEq κ] :
    ∀ (l1 l2 : List (κ × β)) (k : κ),
      lookupA l1 k = none → lookupA (l1 ++ l2) k = lookupA l2 k
  | [], _, _, _ => by rw [List.nil_append]
  | e :: rest, l2, k, h => by
    rw [List.cons_append]
    simp only [lookupA] at h ⊢
    by_cases he : e.1 = k
    · rw [if_pos he] at h
      exact absurd h (by simp)
    · rw [if_neg he] at h ⊢
      exact lookupA_append_none rest l2 k h

theorem lookupA_eq_none_iff {κ β : Type} [DecidableEq κ] :
    ∀ (l : List (κ × β)) (k : κ), lookupA l k = none ↔ k ∉ l.map Prod.fst
  | [], k => by simp [lookupA]
  | e :: rest, k => by
    by_cases he : e.1 = k
    · simp [lookupA, he]
    · simp only [lookupA, if_neg he, List.map_cons, List.mem_cons]
      rw [lookupA_eq_none_iff rest k]
      constructor
      · intro h hm
        exact hm.elim (fun hh => he hh.symm) h
      · intro h hm
        exact h (Or.inr hm)

theorem lookupA_mem {κ β : Type} [DecidableEq κ] :
    ∀ (l : List (κ × β)) (k : κ) (v : β), lookupA l k = some v → (k, v) ∈ l
  | [], k, v, h => by simp [lookupA] at h
  | e :: rest, k, v, h => by
    simp only [lookupA] at h
    by_cases he : e.1 = k
    · rw [if_pos he] at h
      have he2 : e = (k, v) := by
        cases e
        cases he
        cases h
        rfl
      exact he2 ▸ List.mem_cons_self e rest
    · rw [if_neg he] at h
      exact List.mem_cons_of_mem e (lookupA_mem rest k v h)

theorem lookupA_isSome_of_mem_keys {κ β : Type} [DecidableEq κ]
    (l : List (κ × β)) (k : κ) (h : k ∈ l.map Prod.fst) :
    ∃ v, lookupA l k = some v := by
  cases hl : lookupA l k with
  | none => exact absurd ((lookupA_eq_none_iff l k).mp hl) (by simp [h])
  | some v => exact ⟨v, rfl⟩

theorem filter_lookup_congr (l : List String) (lv : Nat)
    (L1 L2 : List (String × Nat)) (h : ∀ x ∈ l, lookupA L2 x = lookupA L1 x) :
    l.filter (fun v => lookupA L2 v = some lv) =
      l.filter (fun v => lookupA L1 v = some lv) :=
  List.filter_congr (fun x hx => by rw [h x hx])

theorem nodup_append_single {α : Type} (l : List α) (a : α) (h : l.Nodup)
    (ha : a ∉ l) : (l ++ [a]).Nodup := by
  rw [List.nodup_append]
  refine ⟨h, List.nodup_singleton a, ?_⟩
  intro x hx hmem
  rw [List.mem_singleton] at hmem
  exact ha (hmem ▸ hx)

/-- The bookkeeping invariant of the level-assignment state: the
`processed` list is duplicate-free, every node with a level is processed,
and no node has two levels. -/
def LInv (st : LState) : Prop :=
  st.processed.Nodup ∧ (∀ k ∈ st.levels.map Prod.fst, k ∈ st.processed) ∧
    (st.levels.map Prod.fst).Nodup

/-- The state/result contract of one `assign_level` call: a processed
node leaves the state unchanged and returns its memoized (or default)
level; a fresh node extends `processed` with itself followed by the other
newly seen nodes, extends `levels` with entries for exactly those nodes,
itself last and with the strictly largest level, and within each level
the newly processed nodes appear in the same order in `processed` and in
`levels`. -/
def ASpec (st : LState) (node : String) (level : Nat) (st' : LState)
    (r : Nat) : Prop :=
  (node ∈ st.processed → st' = st ∧ r = (lookupA st.levels node).getD level) ∧
  (node ∉ st.processed → ∃ tP nL,
    st'.processed = st.processed ++ node :: tP ∧
    st'.levels = st.levels ++ nL ++ [(node, r)] ∧
    (∀ k ∈ nL.map Prod.fst, k ∈ tP) ∧
    (∀ v ∈ tP, v ∈ nL.map Prod.fst) ∧
    (∀ e ∈ nL, e.2 < r) ∧
    (∀ lv : Nat,
      (node :: tP).filter (fun v => lookupA st'.levels v = some lv) =
        ((nL ++ [(node, r)]).filter (fun e => e.2 = lv)).map Prod.fst))

/-- The corresponding contract for the `max(...)` fold over a predecessor
list: the state grows by newly seen nodes, all of which receive levels at
most the returned maximum, with the same per-level ordering property. -/
def FSpec (st : LState) (st' : LState) (m : Nat) : Prop :=
  ∃ nP nL,
    st'.processed = st.processed ++ nP ∧
    st'.levels = st.levels ++ nL ∧
    (∀ k ∈ nL.map Prod.fst, k ∈ nP) ∧
    (∀ v ∈ nP, v ∈ nL.map Prod.fst) ∧
    (∀ e ∈ nL, e.2 ≤ m) ∧
    (∀ lv : Nat,
      nP.filter (fun v => lookupA st'.levels v = some lv) =
        (nL.filter (fun e => e.2 = lv)).map Prod.fst)

theorem maxFold_spec (rec : LState → String → Nat → Option (LState × Nat))
    (hrec : ∀ st node level st' r, LInv st → rec st node level = some (st', r) →
      LInv st' ∧ ASpec st node level st' r) :
    ∀ (ps : List String) (st : LState) (level : Nat) (st' : LState) (m : Nat),
      LInv st → maxFold rec st ps level = some (st', m) →
      LInv st' ∧ FSpec st st' m
  | [], st, level, st', m, hinv, h => by
    simp only [maxFold, Option.some.injEq, Prod.mk.injEq] at h
    obtain ⟨rfl, rfl⟩ := h
    refine ⟨hinv, [], [], (List.append_nil _).symm, (List.append_nil _).symm,
      ?_, ?_, ?_, ?_⟩
    · simp
    · simp
    · simp
    · intro lv
      simp
  | p :: ps, st, level, st', m, hinv, h => by
    simp only [maxFold] at h
    cases hr : rec st p level with
    | none =>
      simp only [hr] at h
      exact absurd h (by simp)
    | some res =>
      obtain ⟨st1, v⟩ := res
      simp only [hr] at h
      cases hf : maxFold rec st1 ps level with
      | none =>
        simp only [hf] at h
        exact absurd h (by simp)
      | some res2 =>
        obtain ⟨st2, mrest⟩ := res2
        simp only [hf, Option.some.injEq, Prod.mk.injEq] at h
        obtain ⟨rfl, rfl⟩ := h
        obtain ⟨hinv1, haspec⟩ := hrec st p level st1 v hinv hr
        obtain ⟨hinv2, hfspec⟩ := maxFold_spec rec hrec ps st1 level st2 mrest hinv1 hf
        refine ⟨hinv2, ?_⟩
        by_cases hp : p ∈ st.processed
        · obtain ⟨h1, -⟩ := haspec.1 hp
          subst h1
          obtain ⟨nP, nL, h1, h2, h3, h4, h5, h6⟩ := hfspec
          exact ⟨nP, nL, h1, h2, h3, h4,
            fun e he => le_trans (h5 e he) (le_max_right v mrest), h6⟩
        · obtain ⟨tP, nL1, hp1, hl1, hk1, hv1, hlt1, hf1⟩ := haspec.2 hp
          obtain ⟨nP2, nL2, hp2, hl2, hk2, hv2, hle2, hf2⟩ := hfspec
          have hmemkeys : ∀ x ∈ p :: tP, x ∈ st1.levels.map Prod.fst := by
            intro x hx
            rw [hl1]
            simp only [List.map_append, List.mem_append]
            rcases List.mem_cons.mp hx with rfl | hx2
            · exact Or.inr (by simp)
            · exact Or.inl (Or.inr (hv1 x hx2))
          have hstable : ∀ x ∈ p :: tP,
              lookupA st2.levels x = lookupA st1.levels x := by
            intro x hx
            obtain ⟨w, hw⟩ := lookupA_isSome_of_mem_keys _ _ (hmemkeys x hx)
            rw [hl2, lookupA_append_some st1.levels nL2 x w hw, hw]
          refine ⟨(p :: tP) ++ nP2, (nL1 ++ [(p, v)]) ++ nL2, ?_, ?_, ?_, ?_, ?_, ?_⟩
          · rw [hp2, hp1]
            simp [List.append_assoc]
          · rw [hl2, hl1]
            simp [List.append_assoc]
          · intro k hk
            have e1 : k ∈ nL1.map Prod.fst → k ∈ tP := hk1 k
            have e2 : k ∈ nL2.map Prod.fst → k ∈ nP2 := hk2 k
            simp only [List.map_append, List.mem_append, List.map_cons,
              List.map_nil, List.mem_cons, List.cons_append,
              List.mem_singleton] at hk e1 e2 ⊢
            tauto
          · intro x hx
            have e1 : x ∈ tP → x ∈ nL1.map Prod.fst := hv1 x
            have e2 : x ∈ nP2 → x ∈ nL2.map Prod.fst := hv2 x
            simp only [List.map_append, List.mem_append, List.map_cons,
              List.map_nil, List.mem_cons, List.cons_append,
              List.mem_singleton] at hx e1 e2 ⊢
            tauto
          · intro e he
            simp only [List.mem_append, List.mem_singleton] at he
            rcases he with (he | rfl) | he
            · exact le_trans (le_of_lt (hlt1 e he)) (le_max_left v mrest)
            · exact le_max_left v mrest
            · exact le_trans (hle2 e he) (le_max_right v mrest)
          · intro lv
            rw [List.filter_append, List.filter_append, List.map_append,
              filter_lookup_congr (p :: tP) lv st1.levels st2.levels hstable,
              hf1 lv, hf2 lv]

theorem assignLevel_spec (G : Graph) :
    ∀ (fuel : Nat) (st : LState) (node : String) (level : Nat) (st' : LState)
      (r : Nat), LInv st → assignLevel G fuel st node level = some (st', r) →
      LInv st' ∧ ASpec st node level st' r
  | 0, st, node, level, st', r, _, h => by
    simp only [assignLevel] at h
    exact absurd h (by simp)
  | fuel + 1, st, node, level, st', r, hinv, h => by
    simp only [assignLevel] at h
    by_cases hproc : node ∈ st.processed
    · rw [if_pos hproc] at h
      simp only [Option.some.injEq, Prod.mk.injEq] at h
      obtain ⟨rfl, rfl⟩ := h
      exact ⟨hinv, fun _ => ⟨rfl, rfl⟩, fun hn => absurd hproc hn⟩
    · rw [if_neg hproc] at h
      have hnodekeys : node ∉ st.levels.map Prod.fst :=
        fun hk => hproc (hinv.2.1 node hk)
      by_cases hpred : (G.predecessorsOf node).isEmpty
      · rw [if_pos hpred] at h
        simp only [Option.some.injEq, Prod.mk.injEq] at h
        obtain ⟨rfl, rfl⟩ := h
        have hlook : lookupA (st.levels ++ [(node, 0)]) node = some 0 := by
          rw [lookupA_append_none st.levels _ node
            ((lookupA_eq_none_iff st.levels node).mpr hnodekeys)]
          simp [lookupA]
        refine ⟨⟨nodup_append_single _ _ hinv.1 hproc, ?_, ?_⟩,
          fun hn => absurd hn hproc, fun _ => ⟨[], [], by simp, by simp, by simp,
            by simp, by simp, ?_⟩⟩
        · intro k hk
          simp only [List.map_append, List.mem_append, List.map_cons,
            List.map_nil, List.mem_singleton] at hk
          rcases hk with hk | hk
          · exact List.mem_append_left _ (hinv.2.1 k hk)
          · have hkn : k = node := by simpa using hk
            exact hkn ▸ List.mem_append_right _ (by simp)
        · show ((st.levels ++ [(node, 0)]).map Prod.fst).Nodup
          rw [List.map_append]
          exact nodup_append_single _ _ hinv.2.2 (by simpa using hnodekeys)
        · intro lv
          simp only [List.filter_cons, List.filter_nil, List.nil_append,
            hlook]
          by_cases hlv : (0 : Nat) = lv
          · subst hlv
            simp
          · simp [hlv, fun hh : lv = 0 => hlv hh.symm]
      · rw [if_neg hpred] at h
        have hinv1 : LInv ⟨st.processed ++ [node], st.levels⟩ :=
          ⟨nodup_append_single _ _ hinv.1 hproc,
            fun k hk => List.mem_append_left _ (hinv.2.1 k hk), hinv.2.2⟩
        cases hm : maxFold (assignLevel G fuel) ⟨st.processed ++ [node], st.levels⟩
            (G.predecessorsOf node) level with
        | none =>
          simp only [hm] at h
          exact absurd h (by simp)
        | some res =>
          obtain ⟨st2, m⟩ := res
          simp only [hm, Option.some.injEq, Prod.mk.injEq] at h
          obtain ⟨rfl, rfl⟩ := h
          obtain ⟨hinv2, hfspec⟩ := maxFold_spec (assignLevel G fuel)
            (assignLevel_spec G fuel) (G.predecessorsOf node)
            ⟨st.processed ++ [node], st.levels⟩ level st2 m hinv1 hm
          obtain ⟨nP2, nL2, hp2, hl2, hk2, hv2, hle2, hf2⟩ := hfspec
          have hp2' : st2.processed = st.processed ++ [node] ++ nP2 := hp2
          have hl2' : st2.levels = st.levels ++ nL2 := hl2
          have hnodenP2 : node ∉ nP2 := by
            have hnd : ((st.processed ++ [node]) ++ nP2).Nodup := by
              rw [← hp2']
              exact hinv2.1
            rw [List.nodup_append] at hnd
            exact fun hmem => hnd.2.2 (List.mem_append_right _ (by simp)) hmem
          have hnodekeys2 : node ∉ nL2.map Prod.fst :=
            fun hk => hnodenP2 (hk2 node hk)
          have hnodekeysSt2 : node ∉ st2.levels.map Prod.fst := by
            rw [hl2', List.map_append]
            simp only [List.mem_append]
            rintro (hk | hk)
            · exact hnodekeys hk
            · exact hnodekeys2 hk
          have hlooknode : lookupA (st2.levels ++ [(node, m + 1)]) node =
              some (m + 1) := by
            rw [lookupA_append_none st2.levels _ node
              ((lookupA_eq_none_iff st2.levels node).mpr hnodekeysSt2)]
            simp [lookupA]
          have hmemkeys2 : ∀ x ∈ nP2, x ∈ st2.levels.map Prod.fst := by
            intro x hx
            rw [hl2', List.map_append]
            exact List.mem_append_right _ (hv2 x hx)
          have hstable : ∀ x ∈ nP2,
              lookupA (st2.levels ++ [(node, m + 1)]) x =
                lookupA st2.levels x := by
            intro x hx
            obtain ⟨w, hw⟩ := lookupA_isSome_of_mem_keys _ _ (hmemkeys2 x hx)
            rw [lookupA_append_some st2.levels _ x w hw, hw]
          have hsmall : ∀ x ∈ nP2, ∃ w, lookupA st2.levels x = some w ∧ w ≤ m := by
            intro x hx
            have hxproc : x ∉ st.processed := by
              have hnd : ((st.processed ++ [node]) ++ nP2).Nodup := by
                rw [← hp2']
                exact hinv2.1
              rw [List.nodup_append] at hnd
              exact fun hmem =>
                hnd.2.2 (List.mem_append_left _ hmem) hx
            have hxs : x ∉ st.levels.map Prod.fst :=
              fun hk => hxproc (hinv.2.1 x hk)
            obtain ⟨w, hw⟩ := lookupA_isSome_of_mem_keys nL2 x (hv2 x hx)
            refine ⟨w, ?_, hle2 (x, w) (lookupA_mem nL2 x w hw)⟩
            rw [hl2', lookupA_append_none st.levels nL2 x
              ((lookupA_eq_none_iff st.levels x).mpr hxs), hw]
          refine ⟨⟨hinv2.1, ?_, ?_⟩, fun hn => absurd hn hproc,
            fun _ => ⟨nP2, nL2, ?_, ?_, hk2, hv2,
              fun e he => Nat.lt_succ_of_le (hle2 e he), ?_⟩⟩
          · intro k hk
            simp only [List.map_append, List.mem_append, List.map_cons,
              List.map_nil, List.mem_singleton] at hk
            rcases hk with hk | hk
            · exact hinv2.2.1 k hk
            · have hkn : k = node := by simpa using hk
              rw [hkn, hp2']
              exact List.mem_append_left _ (List.mem_append_right _ (by simp))
          · show ((st2.levels ++ [(node, m + 1)]).map Prod.fst).Nodup
            rw [List.map_append]
            exact nodup_append_single _ _ hinv2.2.2 (by simpa using hnodekeysSt2)
          · rw [hp2']
            simp [List.append_assoc]
          · rw [hl2']
          · intro lv
            by_cases hlv : lv = m + 1
            · subst hlv
              have hL : nP2.filter
                  (fun v => lookupA (st2.levels ++ [(node, m + 1)]) v =
                    some (m + 1)) = [] := by
                rw [List.filter_eq_nil_iff]
                intro x hx
                obtain ⟨w, hw, hwle⟩ := hsmall x hx
                rw [hstable x hx, hw]
                simp only [decide_eq_true_eq, Option.some.injEq]
                omega
              have hR : nL2.filter (fun e => e.2 = m + 1) = [] := by
                rw [List.filter_eq_nil_iff]
                intro e he
                have := hle2 e he
                simp only [decide_eq_true_eq]
                omega
              rw [List.filter_cons, List.filter_append, hL, hR, hlooknode]
              simp
            · have hnode2 : ¬ (lookupA (st2.levels ++ [(node, m + 1)]) node =
                  some lv) := by
                rw [hlooknode]
                simp only [Option.some.injEq]
                omega
              rw [List.filter_cons, if_neg (by simpa using hnode2),
                filter_lookup_congr nP2 lv st2.levels _ hstable, hf2 lv,
                List.filter_append, List.map_append]
              have hsingle : ([(node, m + 1)].filter
                  (fun e => e.2 = lv)).map Prod.fst = [] := by
                simp only [List.filter_cons, List.filter_nil,
                  decide_eq_true_eq]
                rw [if_neg (by omega)]
                simp
              rw [hsingle, List.append_nil]

theorem filter_length_mono {α : Type} : ∀ (l : List α) (p q : α → Bool),
    (∀ x, q x = true → p x = true) →
    (l.filter q).length ≤ (l.filter p).length
  | [], _, _, _ => le_refl _
  | b :: t, p, q, himp => by
    rw [List.filter_cons, List.filter_cons]
    by_cases hq : q b = true
    · rw [if_pos hq, if_pos (himp b hq)]
      simpa using filter_length_mono t p q himp
    · rw [if_neg hq]
      split
      · exact le_trans (filter_length_mono t p q himp) (by simp)
      · exact filter_length_mono t p q himp

theorem filter_length_lt {α : Type} : ∀ (l : List α) (p q : α → Bool),
    (∀ x, q x = true → p x = true) → ∀ a ∈ l, p a = true → q a = false →
    (l.filter q).length < (l.filter p).length
  | [], _, _, _, a, ha, _, _ => absurd ha (List.not_mem_nil a)
  | b :: t, p, q, himp, a, ha, hpa, hqa => by
    rw [List.filter_cons, List.filter_cons]
    rcases List.mem_cons.mp ha with rfl | hat
    · rw [if_neg (by rw [hqa]; simp), if_pos hpa]
      exact Nat.lt_succ_of_le (by simpa using filter_length_mono t p q himp)
    · by_cases hq : q b = true
      · rw [if_pos hq, if_pos (himp b hq)]
        simpa using filter_length_lt t p q himp a hat hpa hqa
      · rw [if_neg hq]
        have ih := filter_length_lt t p q himp a hat hpa hqa
        split
        · exact lt_trans ih (by simp)
        · exact ih

/-- All node names the level-assignment traversal can ever visit: the
node list plus both endpoints of every edge. -/
def mentioned (G : Graph) : List String :=
  G.nodes ++ G.edges.map (fun e => e.1) ++ G.edges.map (fun e => e.2)

/-- Number of mentioned names not yet processed: the termination measure
of the level-assignment recursion. -/
def unproc (G : Graph) (st : LState) : Nat :=
  ((mentioned G).filter (fun x => x ∉ st.processed)).length

theorem layoutFuel_eq (G : Graph) : layoutFuel G = (mentioned G).length + 1 := rfl

theorem unproc_lt_layoutFuel (G : Graph) (st : LState) :
    unproc G st < layoutFuel G := by
  rw [layoutFuel_eq]
  exact Nat.lt_succ_of_le (List.length_filter_le _ _)

theorem unproc_mono (G : Graph) (st st' : LState)
    (h : ∀ x ∈ st.processed, x ∈ st'.processed) :
    unproc G st' ≤ unproc G st := by
  refine filter_length_mono _ _ _ (fun x hx => ?_)
  simp only [decide_eq_true_eq] at hx ⊢
  exact fun hmem => hx (h x hmem)

theorem unproc_lt_append (G : Graph) (st : LState) (node : String)
    (hmem : node ∈ mentioned G) (hproc : node ∉ st.processed) :
    unproc G ⟨st.processed ++ [node], st.levels⟩ < unproc G st := by
  refine filter_length_lt _ _ _ (fun x hx => ?_) node hmem (by simp [hproc])
    (by simp)
  simp only [decide_eq_true_eq] at hx ⊢
  exact fun hmem2 => hx (List.mem_append_left _ hmem2)

theorem aspec_processed_extend {st : LState} {node : String} {level : Nat}
    {st' : LState} {r : Nat} (h : ASpec st node level st' r) :
    ∃ ext, st'.processed = st.processed ++ ext := by
  by_cases hn : node ∈ st.processed
  · exact ⟨[], by rw [(h.1 hn).1, List.append_nil]⟩
  · obtain ⟨tP, nL, hp, -⟩ := h.2 hn
    exact ⟨node :: tP, hp⟩

theorem predecessorsOf_subset_mentioned (G : Graph) (node p : String)
    (hp : p ∈ G.predecessorsOf node) : p ∈ mentioned G := by
  rw [Graph.predecessorsOf] at hp
  rw [List.mem_map] at hp
  obtain ⟨e, he, rfl⟩ := hp
  rw [List.mem_filter] at he
  rw [mentioned]
  exact List.mem_append_left _
    (List.mem_append_right _ (List.mem_map_of_mem _ he.1))

theorem maxFold_isSome (G : Graph) (fuel : Nat)
    (hrec : ∀ (st : LState) (node : String) (level : Nat), LInv st →
      node ∈ mentioned G → unproc G st < fuel →
      (assignLevel G fuel st node level).isSome) :
    ∀ (ps : List String) (st : LState) (level : Nat),
      LInv st → (∀ p ∈ ps, p ∈ mentioned G) → unproc G st < fuel →
      (maxFold (assignLevel G fuel) st ps level).isSome
  | [], st, level, _, _, _ => by simp [maxFold]
  | p :: ps, st, level, hinv, hps, hlt => by
    have h1 := hrec st p level hinv (hps p (List.mem_cons_self p ps)) hlt
    obtain ⟨⟨st1, v⟩, hr⟩ := Option.isSome_iff_exists.mp h1
    obtain ⟨hinv1, haspec⟩ := assignLevel_spec G fuel st p level st1 v hinv hr
    obtain ⟨ext, hext⟩ := aspec_processed_extend haspec
    have hlt1 : unproc G st1 < fuel :=
      lt_of_le_of_lt (unproc_mono G st st1
        (fun x hx => hext ▸ List.mem_append_left _ hx)) hlt
    have h2 := maxFold_isSome G fuel hrec ps st1 level hinv1
      (fun x hx => hps x (List.mem_cons_of_mem p hx)) hlt1
    obtain ⟨⟨st2, m⟩, hf⟩ := Option.isSome_iff_exists.mp h2
    simp [maxFold, hr, hf]

theorem assignLevel_isSome (G : Graph) :
    ∀ (fuel : Nat) (st : LState) (node : String) (level : Nat), LInv st →
      node ∈ mentioned G → unproc G st < fuel →
      (assignLevel G fuel st node level).isSome
  | 0, st, node, level, _, _, hlt => absurd hlt (by omega)
  | fuel + 1, st, node, level, hinv, hmem, hlt => by
    simp only [assignLevel]
    by_cases hproc : node ∈ st.processed
    · rw [if_pos hproc]
      simp
    · rw [if_neg hproc]
      by_cases hpred : (G.predecessorsOf node).isEmpty
      · rw [if_pos hpred]
        simp
      · rw [if_neg hpred]
        have hinv1 : LInv ⟨st.processed ++ [node], st.levels⟩ :=
          ⟨nodup_append_single _ _ hinv.1 hproc,
            fun k hk => List.mem_append_left _ (hinv.2.1 k hk), hinv.2.2⟩
        have hdec : unproc G ⟨st.processed ++ [node], st.levels⟩ < fuel := by
          have := unproc_lt_append G st node hmem hproc
          omega
        have h2 := maxFold_isSome G fuel
          (fun st2 n2 l2 hi hm hl => assignLevel_isSome G fuel st2 n2 l2 hi hm hl)
          (G.predecessorsOf node) ⟨st.processed ++ [node], st.levels⟩ level hinv1
          (fun p hp => predecessorsOf_subset_mentioned G node p hp) hdec
        obtain ⟨⟨st2, m⟩, hf⟩ := Option.isSome_iff_exists.mp h2
        rw [hf]
        simp

theorem aspec_levels_extend {st : LState} {node : String} {level : Nat}
    {st' : LState} {r : Nat} (h : ASpec st node level st' r) :
    ∃ ext, st'.levels = st.levels ++ ext := by
  by_cases hn : node ∈ st.processed
  · exact ⟨[], by rw [(h.1 hn).1, List.append_nil]⟩
  · obtain ⟨tP, nL, -, hl, -⟩ := h.2 hn
    exact ⟨nL ++ [(node, r)], by rw [hl, List.append_assoc]⟩

theorem aspec_node_processed {st : LState} {node : String} {level : Nat}
    {st' : LState} {r : Nat} (h : ASpec st node level st' r) :
    node ∈ st'.processed := by
  by_cases hn : node ∈ st.processed
  · rw [(h.1 hn).1]
    exact hn
  · obtain ⟨tP, nL, hp, -⟩ := h.2 hn
    rw [hp]
    exact List.mem_append_right _ (List.mem_cons_self node tP)

theorem aspec_lookup_stable {st : LState} {node : String} {level : Nat}
    {st' : LState} {r : Nat} (_hinv : LInv st) (hinv' : LInv st')
    (h : ASpec st node level st' r) :
    ∀ x ∈ st.processed, lookupA st'.levels x = lookupA st.levels x := by
  intro x hx
  by_cases hn : node ∈ st.processed
  · rw [(h.1 hn).1]
  · obtain ⟨tP, nL, hp, hl, hk, -, -, -⟩ := h.2 hn
    have hnd : (st.processed ++ node :: tP).Nodup := by
      rw [← hp]
      exact hinv'.1
    rw [List.nodup_append] at hnd
    have hxnode : x ≠ node := fun hh => hnd.2.2 hx (hh ▸ List.mem_cons_self node tP)
    have hxtP : x ∉ tP := fun hh => hnd.2.2 hx (List.mem_cons_of_mem node hh)
    rw [hl]
    cases hlook : lookupA st.levels x with
    | some w =>
      exact lookupA_append_some _ _ x w (lookupA_append_some _ _ x w hlook)
    | none =>
      have h1 : lookupA (st.levels ++ nL) x = none := by
        rw [lookupA_append_none _ _ x hlook, lookupA_eq_none_iff]
        exact fun hh => hxtP (hk x hh)
      rw [lookupA_append_none _ _ x h1]
      simp only [lookupA]
      rw [if_neg (show ¬((node, r).1 = x) from fun hh => hxnode hh.symm)]

theorem aspec_actives {st : LState} {node : String} {level : Nat}
    {st' : LState} {r : Nat} (h : ASpec st node level st' r)
    (hall : ∀ x ∈ st.processed, x ∈ st.levels.map Prod.fst) :
    ∀ x ∈ st'.processed, x ∈ st'.levels.map Prod.fst := by
  intro x hx
  by_cases hn : node ∈ st.processed
  · rw [(h.1 hn).1] at hx ⊢
    exact hall x hx
  · obtain ⟨tP, nL, hp, hl, -, hv, -, -⟩ := h.2 hn
    rw [hp] at hx
    rw [hl]
    simp only [List.map_append, List.mem_append, List.map_cons, List.map_nil]
    rcases List.mem_append.mp hx with hx2 | hx2
    · exact Or.inl (Or.inl (hall x hx2))
    · rcases List.mem_cons.mp hx2 with rfl | hx3
      · exact Or.inr (by simp)
      · exact Or.inl (Or.inr (hv x hx3))

theorem aspec_order {st : LState} {node : String} {level : Nat}
    {st' : LState} {r : Nat} (hinv : LInv st) (hinv' : LInv st')
    (h : ASpec st node level st' r)
    (hord : ∀ lv : Nat,
      st.processed.filter (fun v => lookupA st.levels v = some lv) =
        (st.levels.filter (fun e => e.2 = lv)).map Prod.fst) :
    ∀ lv : Nat,
      st'.processed.filter (fun v => lookupA st'.levels v = some lv) =
        (st'.levels.filter (fun e => e.2 = lv)).map Prod.fst := by
  intro lv
  by_cases hn : node ∈ st.processed
  · rw [(h.1 hn).1]
    exact hord lv
  · have hstable := aspec_lookup_stable hinv hinv' h
    obtain ⟨tP, nL, hp, hl, -, -, -, hfil⟩ := h.2 hn
    rw [hp, List.filter_append,
      filter_lookup_congr st.processed lv st.levels st'.levels
        (fun x hx => hstable x hx),
      hord lv, hfil lv, hl]
    simp [List.filter_append, List.append_assoc]

theorem assignNodes_full (G : Graph) :
    ∀ (ns : List String) (st : LState), LInv st →
      (∀ n ∈ ns, n ∈ mentioned G) →
      ∃ st', assignNodes G (layoutFuel G) st ns = some st' ∧ LInv st' ∧
        (∃ extP, st'.processed = st.processed ++ extP) ∧
        (∃ extL, st'.levels = st.levels ++ extL) ∧
        (∀ n ∈ ns, n ∈ st'.processed) ∧
        ((∀ x ∈ st.processed, x ∈ st.levels.map Prod.fst) →
          ∀ x ∈ st'.processed, x ∈ st'.levels.map Prod.fst) ∧
        ((∀ lv : Nat,
            st.processed.filter (fun v => lookupA st.levels v = some lv) =
              (st.levels.filter (fun e => e.2 = lv)).map Prod.fst) →
          ∀ lv : Nat,
            st'.processed.filter (fun v => lookupA st'.levels v = some lv) =
              (st'.levels.filter (fun e => e.2 = lv)).map Prod.fst)
  | [], st, hinv, _ =>
    ⟨st, rfl, hinv, ⟨[], (List.append_nil _).symm⟩, ⟨[], (List.append_nil _).symm⟩,
      by simp, fun h => h, fun h => h⟩
  | n :: ns, st, hinv, hmem => by
    have h1 := assignLevel_isSome G (layoutFuel G) st n 0 hinv
      (hmem n (List.mem_cons_self n ns)) (unproc_lt_layoutFuel G st)
    obtain ⟨⟨st1, v⟩, hr⟩ := Option.isSome_iff_exists.mp h1
    obtain ⟨hinv1, haspec⟩ := assignLevel_spec G (layoutFuel G) st n 0 st1 v hinv hr
    obtain ⟨st', hrec, hinv', ⟨extP, hextP⟩, ⟨extL, hextL⟩, hns, hact, hord⟩ :=
      assignNodes_full G ns st1 hinv1
        (fun x hx => hmem x (List.mem_cons_of_mem n hx))
    obtain ⟨ext1, hext1⟩ := aspec_processed_extend haspec
    obtain ⟨ext2, hext2⟩ := aspec_levels_extend haspec
    refine ⟨st', by simp only [assignNodes, hr]; exact hrec, hinv',
      ⟨ext1 ++ extP, by rw [hextP, hext1, List.append_assoc]⟩,
      ⟨ext2 ++ extL, by rw [hextL, hext2, List.append_assoc]⟩, ?_, ?_, ?_⟩
    · intro x hx
      rcases List.mem_cons.mp hx with rfl | hx2
      · rw [hextP]
        exact List.mem_append_left _ (aspec_node_processed haspec)
      · exact hns x hx2
    · intro hall
      exact hact (aspec_actives haspec hall)
    · intro hord0
      exact hord (aspec_order hinv hinv1 haspec hord0)

theorem lookupA_map_update_self :
    ∀ (gs : List (Nat × List String)) (lv : Nat) (k : String),
      lookupA (gs.map (fun g => if g.1 = lv then (g.1, g.2 ++ [k]) else g)) lv =
        (lookupA gs lv).map (fun g => g ++ [k])
  | [], _, _ => rfl
  | g :: rest, lv, k => by
    obtain ⟨l, ns⟩ := g
    by_cases hg : l = lv
    · subst hg
      simp [lookupA]
    · simp only [List.map_cons, lookupA, if_neg hg]
      exact lookupA_map_update_self rest lv k

theorem lookupA_map_update_other :
    ∀ (gs : List (Nat × List String)) (lv : Nat) (k : String) (lv2 : Nat),
      lv2 ≠ lv →
      lookupA (gs.map (fun g => if g.1 = lv then (g.1, g.2 ++ [k]) else g)) lv2 =
        lookupA gs lv2
  | [], _, _, _, _ => rfl
  | g :: rest, lv, k, lv2, h => by
    obtain ⟨l, ns⟩ := g
    by_cases hg : l = lv
    · subst hg
      have h2 : ¬(l = lv2) := fun hh => h hh.symm
      simp [lookupA, h2]
      exact lookupA_map_update_other rest l k lv2 h
    · simp only [List.map_cons, lookupA, if_neg hg]
      by_cases hg2 : l = lv2
      · rw [if_pos hg2, if_pos hg2]
      · rw [if_neg hg2, if_neg hg2]
        exact lookupA_map_update_other rest lv k lv2 h

theorem any_keys_iff (gs : List (Nat × List String)) (lv : Nat) :
    gs.any (fun g => g.1 = lv) = true ↔ lv ∈ gs.map Prod.fst := by
  rw [List.any_eq_true]
  constructor
  · rintro ⟨g, hg, hgl⟩
    simp only [decide_eq_true_eq] at hgl
    exact hgl ▸ List.mem_map_of_mem Prod.fst hg
  · intro h
    rw [List.mem_map] at h
    obtain ⟨g, hg, hgl⟩ := h
    exact ⟨g, hg, by simp [hgl]⟩

theorem lookupA_addToGroups_self (gs : List (Nat × List String)) (lv : Nat)
    (k : String) :
    lookupA (addToGroups gs lv k) lv =
      match lookupA gs lv with
      | none => some [k]
      | some g => some (g ++ [k]) := by
  rw [addToGroups]
  by_cases hany : gs.any (fun g => g.1 = lv) = true
  · rw [if_pos hany, lookupA_map_update_self]
    obtain ⟨g, hg⟩ := lookupA_isSome_of_mem_keys gs lv ((any_keys_iff gs lv).mp hany)
    rw [hg]
    rfl
  · rw [if_neg hany]
    have hnone : lookupA gs lv = none := by
      rw [lookupA_eq_none_iff]
      exact fun hh => hany ((any_keys_iff gs lv).mpr hh)
    rw [lookupA_append_none _ _ _ hnone, hnone]
    simp [lookupA]

theorem lookupA_addToGroups_other (gs : List (Nat × List String)) (lv : Nat)
    (k : String) (lv2 : Nat) (h : lv2 ≠ lv) :
    lookupA (addToGroups gs lv k) lv2 = lookupA gs lv2 := by
  rw [addToGroups]
  by_cases hany : gs.any (fun g => g.1 = lv) = true
  · rw [if_pos hany, lookupA_map_update_other gs lv k lv2 h]
  · rw [if_neg hany]
    cases hl : lookupA gs lv2 with
    | some g => rw [lookupA_append_some _ _ _ _ hl]
    | none =>
      rw [lookupA_append_none _ _ _ hl]
      simp only [lookupA]
      rw [if_neg (show ¬((lv, [k]).1 = lv2) from fun hh => h hh.symm)]

theorem lookupA_levelGroups_go :
    ∀ (entries : List (String × Nat)) (gs : List (Nat × List String)) (lv : Nat),
      lookupA (entries.foldl (fun gs2 e => addToGroups gs2 e.2 e.1) gs) lv =
        match lookupA gs lv with
        | none =>
          if ((entries.filter (fun e => e.2 = lv)).map Prod.fst).isEmpty then
            none
          else some ((entries.filter (fun e => e.2 = lv)).map Prod.fst)
        | some g => some (g ++ (entries.filter (fun e => e.2 = lv)).map Prod.fst)
  | [], gs, lv => by
    cases h : lookupA gs lv <;> simp [h]
  | (k, v) :: rest, gs, lv => by
    simp only [List.foldl_cons]
    rw [lookupA_levelGroups_go rest (addToGroups gs v k) lv]
    by_cases hv : v = lv
    · subst hv
      rw [lookupA_addToGroups_self gs v k]
      cases hg : lookupA gs v with
      | none => simp [List.filter_cons]
      | some g => simp [List.filter_cons, List.append_assoc]
    · rw [lookupA_addToGroups_other gs v k lv (fun hh => hv hh.symm)]
      have hfc : List.filter (fun e => decide (e.2 = lv)) ((k, v) :: rest) =
          List.filter (fun e => decide (e.2 = lv)) rest := by
        rw [List.filter_cons, if_neg (by simpa using hv)]
      rw [hfc]

theorem lookupA_levelGroups (entries : List (String × Nat)) (lv : Nat) :
    lookupA (levelGroups entries) lv =
      if ((entries.filter (fun e => e.2 = lv)).map Prod.fst).isEmpty then none
      else some ((entries.filter (fun e => e.2 = lv)).map Prod.fst) := by
  rw [levelGroups, lookupA_levelGroups_go entries [] lv]
  rfl

/-- The flattened per-level position segments: the contents of the `pos`
dict built by the final loop of `create_hierarchical_layout`. -/
def posConcat : List (Nat × List String) → List (String × (ℚ × ℚ))
  | [] => []
  | g :: rest => groupPositions g.1 g.2 ++ posConcat rest

theorem foldl_groupPositions_eq :
    ∀ (gs : List (Nat × List String)) (init : List (String × (ℚ × ℚ))),
      gs.foldl (fun acc g => acc ++ groupPositions g.1 g.2) init =
        init ++ posConcat gs
  | [], init => by simp [posConcat]
  | g :: rest, init => by
    simp only [List.foldl_cons, posConcat]
    rw [foldl_groupPositions_eq rest, List.append_assoc]

theorem create_hierarchical_layout_eq (G : Graph) (st : LState)
    (h : layoutState G = some st) :
    create_hierarchical_layout G =
      some (posConcat (levelGroups st.levels)) := by
  simp only [create_hierarchical_layout, h]
  rw [foldl_groupPositions_eq, List.nil_append]

theorem groupPositions_keys (lv : Nat) (ns : List String) :
    (groupPositions lv ns).map Prod.fst = ns := by
  rw [groupPositions, List.map_map]
  have : (Prod.fst ∘ fun p : Nat × String =>
      (p.2, ((lv : ℚ) * 200, ((p.1 : ℚ) - (ns.length : ℚ) / 2 + 0.5) * 100))) =
      Prod.snd := rfl
  rw [this, List.enum_map_snd]

theorem mem_keys_posConcat :
    ∀ (gs : List (Nat × List String)) (lv : Nat) (g : List String) (n : String),
      (lv, g) ∈ gs → n ∈ g → n ∈ (posConcat gs).map Prod.fst
  | [], _, _, _, h, _ => absurd h (List.not_mem_nil _)
  | g2 :: rest, lv, g, n, hmem, hn => by
    rw [posConcat, List.map_append, List.mem_append]
    rcases List.mem_cons.mp hmem with heq | h2
    · left
      rw [← heq, groupPositions_keys]
      exact hn
    · right
      exact mem_keys_posConcat rest lv g n h2 hn

theorem layoutState_full (G : Graph) :
    ∃ st, layoutState G = some st ∧ LInv st ∧
      (∀ n ∈ G.nodes, n ∈ st.processed) ∧
      (∀ x ∈ st.processed, x ∈ st.levels.map Prod.fst) ∧
      (∀ lv : Nat,
        st.processed.filter (fun v => lookupA st.levels v = some lv) =
          (st.levels.filter (fun e => e.2 = lv)).map Prod.fst) := by
  obtain ⟨st, hrun, hinv, -, -, hns, hact, hord⟩ :=
    assignNodes_full G G.nodes ⟨[], []⟩
      ⟨List.nodup_nil, by simp, List.nodup_nil⟩
      (fun n hn => List.mem_append_left _ (List.mem_append_left _ hn))
  exact ⟨st, hrun, hinv, hns, hact (by simp), hord (fun lv => by simp)⟩

/-- C8: for every finite directed graph, cyclic or not,
`create_hierarchical_layout` terminates (the fuel `layoutFuel G` is never
exhausted) and returns a coordinate pair for every node of the graph;
moreover a node re-encountered while already marked processed returns its
memoized level, or the default `level` argument when it has none yet,
instead of recursing again, so cyclic input neither recurses unboundedly
nor raises any error. -/
theorem c8_layout_total_on_every_graph :
    (∀ G : Graph, ∃ pos, create_hierarchical_layout G = some pos ∧
      ∀ n ∈ G.nodes, ∃ xy, lookupA pos n = some xy) ∧
    (∀ (G : Graph) (fuel : Nat) (st : LState) (node : String) (level : Nat),
      node ∈ st.processed →
      assignLevel G (fuel + 1) st node level =
        some (st, (lookupA st.levels node).getD level)) := by
  constructor
  · intro G
    obtain ⟨st, hrun, hinv, hns, hact, hord⟩ := layoutState_full G
    refine ⟨posConcat (levelGroups st.levels),
      create_hierarchical_layout_eq G st hrun, ?_⟩
    intro n hn
    obtain ⟨lv, hlv⟩ := lookupA_isSome_of_mem_keys _ _ (hact n (hns n hn))
    have hmemfil : n ∈ (st.levels.filter (fun e => e.2 = lv)).map Prod.fst := by
      refine List.mem_map.mpr ⟨(n, lv), ?_, rfl⟩
      rw [List.mem_filter]
      exact ⟨lookupA_mem _ _ _ hlv, by simp⟩
    have hgrp := lookupA_levelGroups st.levels lv
    rw [if_neg (fun hh => by
      rw [List.isEmpty_iff] at hh
      rw [hh] at hmemfil
      exact absurd hmemfil (List.not_mem_nil n))] at hgrp
    exact lookupA_isSome_of_mem_keys _ _
      (mem_keys_posConcat _ lv _ n (lookupA_mem _ _ _ hgrp) hmemfil)
  · intro G fuel st node level hmem
    simp only [assignLevel, if_pos hmem]

/-- C1 is violated by the code: on the cyclic graph A -> B -> A,
`create_hierarchical_layout` raises no error at all: the `processed`
membership guard silently stops the recursion, levels B:1 and A:2 are
assigned (which even violate monotonicity along the edge A -> B), and a
full coordinate map over both nodes is returned.  Graph construction on
the cyclic trigger data also succeeds, as the claim expects. -/
theorem c1_layout_silently_succeeds_on_cycle :
    layoutLevels ⟨["A", "B"], [("A", "B"), ("B", "A")]⟩ =
      some [("B", 1), ("A", 2)] ∧
    (create_hierarchical_layout ⟨["A", "B"], [("A", "B"), ("B", "A")]⟩).map
      (fun pos => pos.map Prod.fst) = some ["B", "A"] ∧
    build_job_graph [Job.mk "1" "A", Job.mk "2" "B"]
      (fun id => (Except.ok
          (if id = "1" then [Trigger.mk "B"] else [Trigger.mk "A"])
        : Except String (List Trigger))) =
      Except.ok ⟨["A", "B"], [("A", "B"), ("B", "A")]⟩ :=
  ⟨by decide, rfl, rfl⟩

theorem lookupA_of_mem_nodup {κ β : Type} [DecidableEq κ] :
    ∀ (l : List (κ × β)) (k : κ) (v : β), (k, v) ∈ l →
      (l.map Prod.fst).Nodup → lookupA l k = some v
  | [], _, _, h, _ => absurd h (List.not_mem_nil _)
  | e :: rest, k, v, h, hnd => by
    rw [List.map_cons, List.nodup_cons] at hnd
    rcases List.mem_cons.mp h with heq | h2
    · simp only [lookupA]
      rw [if_pos (by rw [← heq])]
      rw [← heq]
    · simp only [lookupA]
      rw [if_neg (show ¬(e.1 = k) from fun hh => hnd.1
        (by rw [hh]; exact List.mem_map_of_mem Prod.fst h2))]
      exact lookupA_of_mem_nodup rest k v h2 hnd.2

theorem mem_keys_unique {κ β : Type} [DecidableEq κ]
    (l : List (κ × β)) (k : κ) (v1 v2 : β) (h1 : (k, v1) ∈ l)
    (h2 : (k, v2) ∈ l) (hnd : (l.map Prod.fst).Nodup) : v1 = v2 := by
  have e1 := lookupA_of_mem_nodup l k v1 h1 hnd
  have e2 := lookupA_of_mem_nodup l k v2 h2 hnd
  rw [e1] at e2
  exact Option.some.inj e2

theorem addToGroups_keys (gs : List (Nat × List String)) (lv : Nat)
    (k : String) :
    (addToGroups gs lv k).map Prod.fst =
      if gs.any (fun g => g.1 = lv) then gs.map Prod.fst
      else gs.map Prod.fst ++ [lv] := by
  rw [addToGroups]
  split
  · rw [List.map_map]
    congr 1
    funext g
    by_cases h : g.1 = lv <;> simp [h]
  · simp

theorem levelGroups_go_keys_nodup :
    ∀ (entries : List (String × Nat)) (gs : List (Nat × List String)),
      (gs.map Prod.fst).Nodup →
      ((entries.foldl (fun gs2 e => addToGroups gs2 e.2 e.1) gs).map
        Prod.fst).Nodup
  | [], gs, h => h
  | (k, v) :: rest, gs, h => by
    simp only [List.foldl_cons]
    refine levelGroups_go_keys_nodup rest (addToGroups gs v k) ?_
    rw [addToGroups_keys]
    split
    · exact h
    · next hany =>
      refine nodup_append_single _ _ h ?_
      intro hmem
      exact hany ((any_keys_iff gs v).mpr hmem)

theorem levelGroups_keys_nodup (entries : List (String × Nat)) :
    ((levelGroups entries).map Prod.fst).Nodup :=
  levelGroups_go_keys_nodup entries [] List.nodup_nil

theorem lookupA_enumFrom_map {β : Type} :
    ∀ (ns : List String) (k i : Nat) (n : String) (F : Nat → β),
      ns.Nodup → ns.get? i = some n →
      lookupA ((List.enumFrom k ns).map (fun p => (p.2, F p.1))) n =
        some (F (k + i))
  | [], _, i, _, _, _, hget => by
    simp at hget
  | m :: rest, k, i, n, F, hnd, hget => by
    rw [List.nodup_cons] at hnd
    cases i with
    | zero =>
      rw [List.get?] at hget
      have hmn : m = n := Option.some.inj hget
      simp only [List.enumFrom, List.map_cons, lookupA]
      rw [if_pos hmn]
      rw [Nat.add_zero]
    | succ j =>
      rw [List.get?] at hget
      have hn : n ∈ rest := List.mem_iff_get?.mpr ⟨j, hget⟩
      simp only [List.enumFrom, List.map_cons, lookupA]
      rw [if_neg (show ¬((k, m).2 = n) from fun hh => hnd.1
        (by rw [show m = n from hh]; exact hn))]
      rw [lookupA_enumFrom_map rest (k + 1) j n F hnd.2 hget]
      congr 1
      congr 1
      omega

theorem lookupA_groupPositions (lv : Nat) (ns : List String) (n : String)
    (i : Nat) (hnd : ns.Nodup) (hget : ns.get? i = some n) :
    lookupA (groupPositions lv ns) n =
      some ((lv : ℚ) * 200,
        ((i : ℚ) - (ns.length : ℚ) / 2 + 0.5) * 100) := by
  rw [groupPositions]
  have h := lookupA_enumFrom_map ns 0 i n
    (fun j => ((lv : ℚ) * 200, ((j : ℚ) - (ns.length : ℚ) / 2 + 0.5) * 100))
    hnd hget
  rw [Nat.zero_add] at h
  exact h

theorem lookupA_posConcat_pre :
    ∀ (pre post : List (Nat × List String)) (seg : Nat × List String)
      (n : String) (v : ℚ × ℚ),
      (∀ g2 ∈ pre, n ∉ g2.2) →
      lookupA (groupPositions seg.1 seg.2) n = some v →
      lookupA (posConcat (pre ++ seg :: post)) n = some v
  | [], post, seg, n, v, _, hv => by
    rw [List.nil_append, posConcat]
    exact lookupA_append_some _ _ _ _ hv
  | g2 :: rest, post, seg, n, v, hpre, hv => by
    rw [List.cons_append, posConcat]
    rw [lookupA_append_none _ _ _ ?_]
    · exact lookupA_posConcat_pre rest post seg n v
        (fun g3 h3 => hpre g3 (List.mem_cons_of_mem g2 h3)) hv
    · rw [lookupA_eq_none_iff, groupPositions_keys]
      exact hpre g2 (List.mem_cons_self g2 rest)

set_option maxHeartbeats 1000000 in
/-- C9: whenever the level assignment of `create_hierarchical_layout`
completes with state `st` (which it always does, by the totality
theorem), the returned map positions each node `n` of level `lv` at
x = lv * 200 and y = (i - size/2 + 0.5) * 100, where `i` is the index of
`n` in its level group and `size` that group's length; the level group is
exactly the nodes of that level in first-seen order (the order of the
`processed` set, stable, not sorted); and the empty graph yields an empty
coordinate map. -/
theorem c9_position_formula_and_order :
    (∀ (G : Graph) (st : LState), layoutState G = some st →
      create_hierarchical_layout G = some (posConcat (levelGroups st.levels)) ∧
      ∀ (n : String) (lv : Nat), lookupA st.levels n = some lv →
        ∃ (g : List String) (i : Nat),
          lookupA (levelGroups st.levels) lv = some g ∧
          g = st.processed.filter (fun v => lookupA st.levels v = some lv) ∧
          g.get? i = some n ∧
          lookupA (posConcat (levelGroups st.levels)) n =
            some ((lv : ℚ) * 200,
              ((i : ℚ) - (g.length : ℚ) / 2 + 0.5) * 100)) ∧
    create_hierarchical_layout ⟨[], []⟩ = some [] := by
  refine ⟨?_, rfl⟩
  intro G st hst
  obtain ⟨st2, hrun, hinv, hns, hact, hord⟩ := layoutState_full G
  rw [hst] at hrun
  cases Option.some.inj hrun
  refine ⟨create_hierarchical_layout_eq G st hst, ?_⟩
  intro n lv hlv
  have hmemfil : n ∈ (st.levels.filter (fun e => e.2 = lv)).map Prod.fst := by
    refine List.mem_map.mpr ⟨(n, lv), ?_, rfl⟩
    rw [List.mem_filter]
    exact ⟨lookupA_mem _ _ _ hlv, by simp⟩
  have hgrp := lookupA_levelGroups st.levels lv
  rw [if_neg (fun hh => by
    rw [List.isEmpty_iff] at hh
    rw [hh] at hmemfil
    exact absurd hmemfil (List.not_mem_nil n))] at hgrp
  have hgnodup : ((st.levels.filter (fun e => e.2 = lv)).map Prod.fst).Nodup :=
    List.Nodup.sublist ((List.filter_sublist st.levels).map Prod.fst) hinv.2.2
  obtain ⟨i, hi⟩ := List.mem_iff_get?.mp hmemfil
  obtain ⟨pre, post, hsplit⟩ := List.append_of_mem (lookupA_mem _ _ _ hgrp)
  have hposlook : lookupA (posConcat (levelGroups st.levels)) n =
      some ((lv : ℚ) * 200,
        ((i : ℚ) -
          (((st.levels.filter (fun e => e.2 = lv)).map Prod.fst).length : ℚ)
            / 2 + 0.5) * 100) := by
    rw [hsplit]
    refine lookupA_posConcat_pre pre post
      (lv, (st.levels.filter (fun e => e.2 = lv)).map Prod.fst) n _ ?_ ?_
    · intro g2 hg2 hn2
      have hg2mem : g2 ∈ levelGroups st.levels := by
        rw [hsplit]
        exact List.mem_append_left _ hg2
      have hknd := levelGroups_keys_nodup st.levels
      have hlook2 : lookupA (levelGroups st.levels) g2.1 = some g2.2 :=
        lookupA_of_mem_nodup _ g2.1 g2.2 (by rw [Prod.mk.eta]; exact hg2mem)
          hknd
      have hchar := lookupA_levelGroups st.levels g2.1
      rw [hlook2] at hchar
      split at hchar
      · exact absurd hchar (by simp)
      · have hg2eq : g2.2 =
            (st.levels.filter (fun e => e.2 = g2.1)).map Prod.fst :=
          Option.some.inj hchar
        rw [hg2eq] at hn2
        obtain ⟨e, he, hefst⟩ := List.mem_map.mp hn2
        rw [List.mem_filter] at he
        obtain ⟨e1, e2⟩ := e
        simp only at hefst
        have h22 : e2 = g2.1 := by simpa using he.2
        rw [hefst, h22] at he
        have hglv : g2.1 = lv :=
          mem_keys_unique st.levels n g2.1 lv he.1 (lookupA_mem _ _ _ hlv)
            hinv.2.2
        rw [hsplit, List.map_append, List.map_cons, List.nodup_append] at hknd
        exact hknd.2.2 (hglv ▸ List.mem_map_of_mem Prod.fst hg2)
          (List.mem_cons_self lv _)
    · exact lookupA_groupPositions lv _ n i hgnodup hi
  exact ⟨(st.levels.filter (fun e => e.2 = lv)).map Prod.fst, i, hgrp,
    (hord lv).symm, hi, hposlook⟩

/-- Witness for C9: the chain graph A -> B -> C; its level assignment is
A:0, B:1, C:2, and the instantiated position facts for node C follow by
applying the theorem. -/
theorem c9_position_formula_and_order_witness :
    (layoutState ⟨["A", "B", "C"], [("A", "B"), ("B", "C")]⟩ =
        some ⟨["A", "B", "C"], [("A", 0), ("B", 1), ("C", 2)]⟩ ∧
      lookupA [("A", 0), ("B", 1), ("C", 2)] "C" = some 2) ∧
    (∃ (g : List String) (i : Nat),
      lookupA (levelGroups [("A", 0), ("B", 1), ("C", 2)]) 2 = some g ∧
      g = ["A", "B", "C"].filter
        (fun v => lookupA [("A", 0), ("B", 1), ("C", 2)] v = some 2) ∧
      g.get? i = some "C" ∧
      lookupA (posConcat (levelGroups [("A", 0), ("B", 1), ("C", 2)])) "C" =
        some (((2 : Nat) : ℚ) * 200,
          ((i : ℚ) - (g.length : ℚ) / 2 + 0.5) * 100)) :=
  ⟨⟨by decide, by decide⟩,
    ((c9_position_formula_and_order.1
      ⟨["A", "B", "C"], [("A", "B"), ("B", "C")]⟩
      ⟨["A", "B", "C"], [("A", 0), ("B", 1), ("C", 2)]⟩ (by decide)).2 "C" 2
      (by decide))⟩

/-- Witness for C8: the processed-set guard conjunct applied at a
concrete call: node A is already processed, so the call returns
immediately with the state unchanged and the default level. -/
theorem c8_layout_total_on_every_graph_witness :
    ("A" ∈ (⟨["A"], []⟩ : LState).processed) ∧
    assignLevel ⟨["A", "B"], [("A", "B"), ("B", "A")]⟩ (0 + 1)
        ⟨["A"], []⟩ "A" 0 =
      some (⟨["A"], []⟩, (lookupA (⟨["A"], []⟩ : LState).levels "A").getD 0) :=
  ⟨by decide,
    c8_layout_total_on_every_graph.2 ⟨["A", "B"], [("A", "B"), ("B", "A")]⟩ 0
      ⟨["A"], []⟩ "A" 0 (by decide)⟩

/-- Directed reachability along the edges of a graph. -/
inductive GPath (G : Graph) : String → String → Prop where
  | refl (a : String) : GPath G a a
  | step {a b c : String} : (a, b) ∈ G.edges → GPath G b c → GPath G a c

/-- Acyclicity: no edge closes a directed cycle back to its source. -/
def Acyclic (G : Graph) : Prop :=
  ∀ a b, (a, b) ∈ G.edges → GPath G b a → False

theorem pathHeadCases {G : Graph} {a b : String} (h : GPath G a b) :
    a = b ∨ ∃ c, (a, c) ∈ G.edges ∧ GPath G c b := by
  cases h with
  | refl => exact Or.inl rfl
  | step he hp => exact Or.inr ⟨_, he, hp⟩

theorem path_no_out {G : Graph} {a b : String}
    (hno : ∀ c, (a, c) ∉ G.edges) (h : GPath G a b) : a = b := by
  cases h with
  | refl => rfl
  | step he hp => exact absurd he (hno _)

theorem mem_predecessorsOf (G : Graph) (a b : String) :
    a ∈ G.predecessorsOf b ↔ (a, b) ∈ G.edges := by
  rw [Graph.predecessorsOf]
  constructor
  · intro h
    obtain ⟨e, he, hfst⟩ := List.mem_map.mp h
    rw [List.mem_filter] at he
    obtain ⟨e1, e2⟩ := e
    simp only at hfst
    have h2 : e2 = b := by simpa using he.2
    rw [hfst, h2] at he
    exact he.1
  · intro h
    exact List.mem_map.mpr ⟨(a, b), List.mem_filter.mpr ⟨h, by simp⟩, rfl⟩

theorem listMax_cons (x : Nat) (l : List Nat) :
    listMax (x :: l) = max x (listMax l) := rfl

theorem le_listMax_of_mem : ∀ (l : List Nat) (x : Nat), x ∈ l → x ≤ listMax l
  | [], x, h => absurd h (List.not_mem_nil x)
  | y :: rest, x, h => by
    rw [listMax_cons]
    rcases List.mem_cons.mp h with rfl | h2
    · exact le_max_left x (listMax rest)
    · exact le_trans (le_listMax_of_mem rest x h2) (le_max_right y (listMax rest))

/-- The recursive longest-path level equation of the spec, stated for one
levels entry against a levels map: level 0 for a node without
predecessors, otherwise one plus the maximum predecessor level, all
predecessors having levels. -/
def GoodEntry (G : Graph) (final : List (String × Nat)) (k : String)
    (v : Nat) : Prop :=
  (G.predecessorsOf k = [] → v = 0) ∧
  (G.predecessorsOf k ≠ [] →
    (∀ p ∈ G.predecessorsOf k, p ∈ final.map Prod.fst) ∧
    v = listMax ((G.predecessorsOf k).map
      (fun p => (lookupA final p).getD 0)) + 1)

/-- Every entry of a levels map satisfies the level equation. -/
def AllGood (G : Graph) (final : List (String × Nat)) : Prop :=
  ∀ e ∈ final, GoodEntry G final e.1 e.2

theorem goodEntry_mono (G : Graph) (final ext : List (String × Nat))
    (k : String) (v : Nat) (h : GoodEntry G final k v) :
    GoodEntry G (final ++ ext) k v := by
  refine ⟨h.1, fun hne => ?_⟩
  obtain ⟨hkeys, hval⟩ := h.2 hne
  constructor
  · intro p hp
    rw [List.map_append]
    exact List.mem_append_left _ (hkeys p hp)
  · rw [hval]
    congr 2
    refine List.map_congr_left (fun p hp => ?_)
    obtain ⟨w, hw⟩ := lookupA_isSome_of_mem_keys final p (hkeys p hp)
    rw [hw, lookupA_append_some _ _ _ _ hw]

theorem aspec_lookup_self {st : LState} {node : String} {level : Nat}
    {st' : LState} {r : Nat} (hinv' : LInv st')
    (h : ASpec st node level st' r)
    (hnodeOK : node ∈ st.processed → lookupA st.levels node ≠ none) :
    lookupA st'.levels node = some r := by
  by_cases hn : node ∈ st.processed
  · obtain ⟨heq, hr⟩ := h.1 hn
    rw [heq]
    cases hlook : lookupA st.levels node with
    | none => exact absurd hlook (hnodeOK hn)
    | some w =>
      rw [hlook] at hr
      rw [hr]
      rfl
  · obtain ⟨tP, nL, hp, hl, -⟩ := h.2 hn
    refine lookupA_of_mem_nodup _ _ _ ?_ hinv'.2.2
    rw [hl]
    exact List.mem_append_right _ (by simp)

theorem aspec_actives_char {st : LState} {node : String} {level : Nat}
    {st' : LState} {r : Nat} (hinv : LInv st) (hinv' : LInv st')
    (h : ASpec st node level st' r) :
    ∀ v ∈ st'.processed, lookupA st'.levels v = none →
      v ∈ st.processed ∧ lookupA st.levels v = none := by
  intro v hv hnone
  by_cases hn : node ∈ st.processed
  · obtain ⟨heq, -⟩ := h.1 hn
    subst heq
    exact ⟨hv, hnone⟩
  · have hstable := aspec_lookup_stable hinv hinv' h
    obtain ⟨tP, nL, hp, hl, -, hvk, -, -⟩ := h.2 hn
    rw [hp] at hv
    rcases List.mem_append.mp hv with hv2 | hv2
    · exact ⟨hv2, by rw [← hstable v hv2]; exact hnone⟩
    · exfalso
      have hvkey : v ∈ st'.levels.map Prod.fst := by
        rw [hl]
        simp only [List.map_append, List.mem_append]
        rcases List.mem_cons.mp hv2 with rfl | hv3
        · exact Or.inr (by simp)
        · exact Or.inl (Or.inr (hvk v hv3))
      exact absurd ((lookupA_eq_none_iff _ _).mp hnone) (by simp [hvkey])

theorem maxFold_good (G : Graph) (hacy : Acyclic G)
    (rec : LState → String → Nat → Option (LState × Nat))
    (hrecspec : ∀ st node level st' r, LInv st →
      rec st node level = some (st', r) → LInv st' ∧ ASpec st node level st' r)
    (hrecgood : ∀ st node level st' r, LInv st → AllGood G st.levels →
      (∀ v ∈ st.processed, lookupA st.levels v = none → GPath G node v) →
      (node ∈ st.processed → lookupA st.levels node ≠ none) →
      rec st node level = some (st', r) →
      AllGood G st'.levels ∧ lookupA st'.levels node = some r) :
    ∀ (ps : List String) (st : LState) (level : Nat) (st' : LState) (m : Nat)
      (node : String),
      LInv st → AllGood G st.levels →
      (∀ p ∈ ps, (p, node) ∈ G.edges) →
      (∀ v ∈ st.processed, lookupA st.levels v = none → GPath G node v) →
      maxFold rec st ps level = some (st', m) →
      AllGood G st'.levels ∧
      (∀ p ∈ ps, ∃ w, lookupA st'.levels p = some w) ∧
      m = listMax (ps.map (fun p => (lookupA st'.levels p).getD 0))
  | [], st, level, st', m, node, _, hgood, _, _, h => by
    simp only [maxFold, Option.some.injEq, Prod.mk.injEq] at h
    obtain ⟨rfl, rfl⟩ := h
    exact ⟨hgood, by simp, rfl⟩
  | p :: ps, st, level, st', m, node, hinv, hgood, hedges, hactives, h => by
    simp only [maxFold] at h
    cases hr : rec st p level with
    | none =>
      simp only [hr] at h
      exact absurd h (by simp)
    | some res =>
      obtain ⟨st1, v⟩ := res
      simp only [hr] at h
      cases hf : maxFold rec st1 ps level with
      | none =>
        simp only [hf] at h
        exact absurd h (by simp)
      | some res2 =>
        obtain ⟨st2, mrest⟩ := res2
        simp only [hf, Option.some.injEq, Prod.mk.injEq] at h
        obtain ⟨rfl, rfl⟩ := h
        have hedgep : (p, node) ∈ G.edges := hedges p (List.mem_cons_self p ps)
        obtain ⟨hinv1, haspec1⟩ := hrecspec st p level st1 v hinv hr
        obtain ⟨hgood1, hlookp⟩ := hrecgood st p level st1 v hinv hgood
          (fun w hw hn => GPath.step hedgep (hactives w hw hn))
          (fun hp hnone => absurd (hactives p hp hnone) (hacy p node hedgep)) hr
        have hactives1 : ∀ w ∈ st1.processed, lookupA st1.levels w = none →
            GPath G node w := by
          intro w hw hn
          obtain ⟨hw2, hn2⟩ := aspec_actives_char hinv hinv1 haspec1 w hw hn
          exact hactives w hw2 hn2
        obtain ⟨hinv2, hfspec2⟩ := maxFold_spec rec hrecspec ps st1 level st2
          mrest hinv1 hf
        obtain ⟨hgood2, hlooks2, hm2⟩ := maxFold_good G hacy rec hrecspec
          hrecgood ps st1 level st2 mrest node hinv1 hgood1
          (fun q hq => hedges q (List.mem_cons_of_mem p hq)) hactives1 hf
        obtain ⟨nP2, nL2, -, hl2, -⟩ := hfspec2
        have hlookp2 : lookupA st2.levels p = some v := by
          rw [hl2]
          exact lookupA_append_some _ _ _ _ hlookp
        refine ⟨hgood2, ?_, ?_⟩
        · intro q hq
          rcases List.mem_cons.mp hq with rfl | hq2
          · exact ⟨v, hlookp2⟩
          · exact hlooks2 q hq2
        · rw [List.map_cons, listMax_cons, hlookp2, hm2]
          rfl

theorem assignLevel_good (G : Graph) (hacy : Acyclic G) :
    ∀ (fuel : Nat) (st : LState) (node : String) (level : Nat) (st' : LState)
      (r : Nat),
      LInv st → AllGood G st.levels →
      (∀ v ∈ st.processed, lookupA st.levels v = none → GPath G node v) →
      (node ∈ st.processed → lookupA st.levels node ≠ none) →
      assignLevel G fuel st node level = some (st', r) →
      AllGood G st'.levels ∧ lookupA st'.levels node = some r
  | 0, st, node, level, st', r, _, _, _, _, h => by
    simp only [assignLevel] at h
    exact absurd h (by simp)
  | fuel + 1, st, node, level, st', r, hinv, hgood, hactives, hnodeOK, h => by
    obtain ⟨hinv', haspec⟩ :=
      assignLevel_spec G (fuel + 1) st node level st' r hinv h
    refine ⟨?_, aspec_lookup_self hinv' haspec hnodeOK⟩
    simp only [assignLevel] at h
    by_cases hproc : node ∈ st.processed
    · rw [if_pos hproc] at h
      simp only [Option.some.injEq, Prod.mk.injEq] at h
      obtain ⟨heq, -⟩ := h
      rw [← heq]
      exact hgood
    · rw [if_neg hproc] at h
      by_cases hpred : (G.predecessorsOf node).isEmpty
      · rw [if_pos hpred] at h
        simp only [Option.some.injEq, Prod.mk.injEq] at h
        obtain ⟨heq, -⟩ := h
        rw [← heq]
        intro e he
        rcases List.mem_append.mp he with he2 | he2
        · exact goodEntry_mono G st.levels [(node, 0)] e.1 e.2 (hgood e he2)
        · rw [List.mem_singleton.mp he2]
          exact ⟨fun _ => rfl,
            fun hne => absurd (List.isEmpty_iff.mp hpred) hne⟩
      · rw [if_neg hpred] at h
        cases hm : maxFold (assignLevel G fuel)
            ⟨st.processed ++ [node], st.levels⟩ (G.predecessorsOf node)
            level with
        | none =>
          simp only [hm] at h
          exact absurd h (by simp)
        | some res =>
          obtain ⟨st2, mx⟩ := res
          simp only [hm, Option.some.injEq, Prod.mk.injEq] at h
          obtain ⟨heq, -⟩ := h
          rw [← heq]
          have hinv1 : LInv ⟨st.processed ++ [node], st.levels⟩ :=
            ⟨nodup_append_single _ _ hinv.1 hproc,
              fun k hk => List.mem_append_left _ (hinv.2.1 k hk), hinv.2.2⟩
          have hactives1 :
              ∀ v ∈ (⟨st.processed ++ [node], st.levels⟩ : LState).processed,
              lookupA (⟨st.processed ++ [node], st.levels⟩ : LState).levels v =
                none → GPath G node v := by
            intro v hv hn
            rcases List.mem_append.mp hv with hv2 | hv2
            · exact hactives v hv2 hn
            · rw [List.mem_singleton.mp hv2]
              exact GPath.refl node
          obtain ⟨hgood2, hlooks2, hm2⟩ := maxFold_good G hacy
            (assignLevel G fuel) (assignLevel_spec G fuel)
            (assignLevel_good G hacy fuel) (G.predecessorsOf node)
            ⟨st.processed ++ [node], st.levels⟩ level st2 mx node hinv1 hgood
            (fun p hp => (mem_predecessorsOf G p node).mp hp) hactives1 hm
          intro e he
          rcases List.mem_append.mp he with he2 | he2
          · exact goodEntry_mono G st2.levels [(node, mx + 1)] e.1 e.2
              (hgood2 e he2)
          · rw [List.mem_singleton.mp he2]
            show GoodEntry G (st2.levels ++ [(node, mx + 1)]) node (mx + 1)
            refine ⟨fun hemp => absurd hemp
              (fun hemp2 => hpred (by rw [hemp2]; rfl)), fun hne => ⟨?_, ?_⟩⟩
            · intro p hp
              obtain ⟨w, hw⟩ := hlooks2 p hp
              rw [List.map_append]
              exact List.mem_append_left _
                (List.mem_map_of_mem Prod.fst (lookupA_mem _ _ _ hw))
            · congr 1
              rw [hm2]
              refine congrArg listMax (List.map_congr_left (fun p hp => ?_))
              obtain ⟨w, hw⟩ := hlooks2 p hp
              rw [hw, lookupA_append_some _ _ _ _ hw]

theorem assignNodes_good (G : Graph) (hacy : Acyclic G) :
    ∀ (ns : List String) (st : LState), LInv st → AllGood G st.levels →
      (∀ v ∈ st.processed, v ∈ st.levels.map Prod.fst) →
      ∀ st', assignNodes G (layoutFuel G) st ns = some st' →
      AllGood G st'.levels
  | [], st, _, hgood, _, st', h => by
    simp only [assignNodes, Option.some.injEq] at h
    rw [← h]
    exact hgood
  | n :: ns, st, hinv, hgood, hall, st', h => by
    simp only [assignNodes] at h
    cases hr : assignLevel G (layoutFuel G) st n 0 with
    | none =>
      simp only [hr] at h
      exact absurd h (by simp)
    | some res =>
      obtain ⟨st1, v⟩ := res
      simp only [hr] at h
      obtain ⟨hinv1, haspec1⟩ :=
        assignLevel_spec G (layoutFuel G) st n 0 st1 v hinv hr
      have hactives : ∀ w ∈ st.processed, lookupA st.levels w = none →
          GPath G n w := by
        intro w hw hn
        exact absurd ((lookupA_eq_none_iff _ _).mp hn) (by simp [hall w hw])
      have hnOK : n ∈ st.processed → lookupA st.levels n ≠ none := by
        intro hn hnone
        exact absurd ((lookupA_eq_none_iff _ _).mp hnone) (by simp [hall n hn])
      obtain ⟨hgood1, -⟩ := assignLevel_good G hacy (layoutFuel G) st n 0 st1 v
        hinv hgood hactives hnOK hr
      exact assignNodes_good G hacy ns st1 hinv1 hgood1
        (aspec_actives haspec1 hall) st' h

/-- C2: on every acyclic graph (whose edge targets are nodes), the
hierarchical layout terminates and assigns levels satisfying exactly the
recursive longest-path definition: 0 for a node without predecessors,
otherwise one plus the maximum of its predecessor levels (all
predecessors having levels); consequently levels are strictly increasing
along every edge, and on the chain A -> B -> C the computed levels are
A:0, B:1, C:2. -/
theorem c2_levels_longest_path :
    (∀ G : Graph, Acyclic G → (∀ e ∈ G.edges, e.2 ∈ G.nodes) →
      ∃ st, layoutState G = some st ∧
        (∀ n ∈ G.nodes, ∃ v, lookupA st.levels n = some v) ∧
        (∀ k v, (k, v) ∈ st.levels →
          (G.predecessorsOf k = [] → v = 0) ∧
          (G.predecessorsOf k ≠ [] →
            (∀ p ∈ G.predecessorsOf k, ∃ w, lookupA st.levels p = some w) ∧
            v = listMax ((G.predecessorsOf k).map
              (fun p => (lookupA st.levels p).getD 0)) + 1)) ∧
        (∀ a b va vb, (a, b) ∈ G.edges → lookupA st.levels a = some va →
          lookupA st.levels b = some vb → va < vb)) ∧
    layoutLevels ⟨["A", "B", "C"], [("A", "B"), ("B", "C")]⟩ =
      some [("A", 0), ("B", 1), ("C", 2)] := by
  refine ⟨?_, by decide⟩
  intro G hacy hwf
  obtain ⟨st, hrun, hinv, hns, hact, hord⟩ := layoutState_full G
  have hgood : AllGood G st.levels :=
    assignNodes_good G hacy G.nodes ⟨[], []⟩
      ⟨List.nodup_nil, by simp, List.nodup_nil⟩
      (fun e he => absurd he (List.not_mem_nil e))
      (by simp) st hrun
  refine ⟨st, hrun, ?_, ?_, ?_⟩
  · intro n hn
    exact lookupA_isSome_of_mem_keys _ _ (hact n (hns n hn))
  · intro k v hkv
    have hge : GoodEntry G st.levels k v := hgood (k, v) hkv
    refine ⟨hge.1, fun hne => ?_⟩
    obtain ⟨hkeys, hval⟩ := hge.2 hne
    exact ⟨fun p hp => lookupA_isSome_of_mem_keys _ _ (hkeys p hp), hval⟩
  · intro a b va vb hab hva hvb
    have hge : GoodEntry G st.levels b vb := hgood (b, vb) (lookupA_mem _ _ _ hvb)
    have hpa : a ∈ G.predecessorsOf b := (mem_predecessorsOf G a b).mpr hab
    have hne : G.predecessorsOf b ≠ [] := by
      intro hemp
      rw [hemp] at hpa
      exact absurd hpa (List.not_mem_nil a)
    obtain ⟨-, hval⟩ := hge.2 hne
    have hmem : va ∈ (G.predecessorsOf b).map
        (fun p => (lookupA st.levels p).getD 0) := by
      refine List.mem_map.mpr ⟨a, hpa, ?_⟩
      rw [hva]
      rfl
    have hmax := le_listMax_of_mem _ _ hmem
    omega

/-- Witness for C2: the chain graph A -> B -> C is acyclic and
well-formed, so the theorem instantiates to it. -/
theorem c2_levels_longest_path_witness :
    (Acyclic ⟨["A", "B", "C"], [("A", "B"), ("B", "C")]⟩ ∧
      (∀ e ∈ (⟨["A", "B", "C"], [("A", "B"), ("B", "C")]⟩ : Graph).edges,
        e.2 ∈ (⟨["A", "B", "C"], [("A", "B"), ("B", "C")]⟩ : Graph).nodes)) ∧
    (∃ st, layoutState ⟨["A", "B", "C"], [("A", "B"), ("B", "C")]⟩ = some st ∧
      (∀ n ∈ (⟨["A", "B", "C"], [("A", "B"), ("B", "C")]⟩ : Graph).nodes,
        ∃ v, lookupA st.levels n = some v) ∧
      (∀ k v, (k, v) ∈ st.levels →
        ((⟨["A", "B", "C"], [("A", "B"), ("B", "C")]⟩ : Graph).predecessorsOf
            k = [] → v = 0) ∧
        ((⟨["A", "B", "C"], [("A", "B"), ("B", "C")]⟩ : Graph).predecessorsOf
            k ≠ [] →
          (∀ p ∈ (⟨["A", "B", "C"],
              [("A", "B"), ("B", "C")]⟩ : Graph).predecessorsOf k,
            ∃ w, lookupA st.levels p = some w) ∧
          v = listMax
            (((⟨["A", "B", "C"],
                [("A", "B"), ("B", "C")]⟩ : Graph).predecessorsOf k).map
              (fun p => (lookupA st.levels p).getD 0)) + 1)) ∧
      (∀ a b va vb,
        (a, b) ∈ (⟨["A", "B", "C"], [("A", "B"), ("B", "C")]⟩ : Graph).edges →
        lookupA st.levels a = some va → lookupA st.levels b = some vb →
        va < vb)) := by
  have hnoC : ∀ c,
      ("C", c) ∉ (⟨["A", "B", "C"], [("A", "B"), ("B", "C")]⟩ : Graph).edges := by
    intro c hc
    rcases List.mem_cons.mp hc with h1 | hc2
    · exact absurd (show "C" = "A" from congrArg Prod.fst h1) (by decide)
    · rcases List.mem_cons.mp hc2 with h2 | h3
      · exact absurd (show "C" = "B" from congrArg Prod.fst h2) (by decide)
      · exact absurd h3 (List.not_mem_nil _)
  have hCB : ¬ GPath ⟨["A", "B", "C"], [("A", "B"), ("B", "C")]⟩ "C" "B" :=
    fun hp => absurd (path_no_out hnoC hp) (by decide)
  have hCA : ¬ GPath ⟨["A", "B", "C"], [("A", "B"), ("B", "C")]⟩ "C" "A" :=
    fun hp => absurd (path_no_out hnoC hp) (by decide)
  have hBA : ¬ GPath ⟨["A", "B", "C"], [("A", "B"), ("B", "C")]⟩ "B" "A" := by
    intro hp
    rcases pathHeadCases hp with heq | ⟨c, hc, hp2⟩
    · exact absurd heq (by decide)
    · rcases List.mem_cons.mp hc with h1 | hc2
      · exact absurd (show "B" = "A" from congrArg Prod.fst h1) (by decide)
      · rcases List.mem_cons.mp hc2 with h2 | h3
        · rw [show c = "C" from congrArg Prod.snd h2] at hp2
          exact hCA hp2
        · exact absurd h3 (List.not_mem_nil _)
  have hacy : Acyclic ⟨["A", "B", "C"], [("A", "B"), ("B", "C")]⟩ := by
    intro a b hab hpath
    rcases List.mem_cons.mp hab with h1 | hab2
    · rw [show a = "A" from congrArg Prod.fst h1,
        show b = "B" from congrArg Prod.snd h1] at hpath
      exact hBA hpath
    · rcases List.mem_cons.mp hab2 with h2 | h3
      · rw [show a = "B" from congrArg Prod.fst h2,
          show b = "C" from congrArg Prod.snd h2] at hpath
        exact hCB hpath
      · exact absurd h3 (List.not_mem_nil _)
  exact ⟨⟨hacy, by decide⟩,
    c2_levels_longest_path.1 ⟨["A", "B", "C"], [("A", "B"), ("B", "C")]⟩
      hacy (by decide)⟩
